import Mathlib

/-!
Verification of the VLSM (variable-length subnet masking) allocation kernel.

The kernel lives in two JavaScript source files: the VLSM logic module
(parseIP, ipToInt, intToIP, getNetworkAddress, getBroadcastAddress,
getFirstUsableIP, getLastUsableIP, findSuitableCIDR, performVLSMAllocation,
calculateVLSM, generateSubnetDivision) and the binary-map helper module
(getTotalHosts, getUsableHosts).

Modelling conventions, chosen to mirror JavaScript number semantics:
* Dotted-decimal address strings produced by intToIP are represented by
  their unsigned 32-bit value, a Nat below 2^32.  The function ipToInt in
  the source uses the 32-bit shift operator, which works on signed 32-bit
  integers, so reading such a string back yields the signed reinterpretation
  of that Nat; sInt32 below is exactly that reinterpretation.
* Bitwise AND on 32-bit values is Nat.land on the unsigned representatives.
* The unsigned shift by zero (x >>> 0 in the source) is the mod-2^32
  normalisation, which is a no-op on the Nat representatives.
* JavaScript throw/catch is modelled with Except; each distinct throw site
  of the kernel gets its own constructor.
* Array.prototype.sort with a consistent comparator is mandated by the
  language specification to be a stable sort; sortCmp below is a stable
  insertion sort and therefore computes the same list.
-/

namespace VLSM

/-- Signed 32-bit reinterpretation of an unsigned 32-bit value, as produced
by reading a dotted string back through ipToInt (whose shifts are signed). -/
def sInt32 (n : Nat) : Int :=
  if n < 2 ^ 31 then (n : Int) else (n : Int) - 2 ^ 32

/-- Reduction of an arbitrary integer to its signed 32-bit value, the ToInt32
conversion JavaScript applies to shift and bitwise operands. -/
def toInt32 (v : Int) : Int :=
  let m := v % 2 ^ 32
  if m < 2 ^ 31 then m else m - 2 ^ 32

/-- Source getNetworkAddress computes the mask as (-1 << (32 - cidr)) >>> 0;
for cidr in [1,32] that unsigned value is 2^32 - 2^(32-cidr). -/
def maskInt (cidr : Nat) : Nat := 2 ^ 32 - 2 ^ (32 - cidr)

/-- Source getNetworkAddress: bitwise AND of the address with the prefix
mask, then >>> 0 (identity on the unsigned representative). -/
def getNetworkAddress (addr cidr : Nat) : Nat := addr &&& maskInt cidr

/-- Source getTotalHosts: Math.pow(2, 32 - cidr). -/
def getTotalHosts (cidr : Nat) : Int := 2 ^ (32 - cidr)

/-- Source getUsableHosts: Math.max(0, totalHosts - 2). -/
def getUsableHosts (cidr : Nat) : Int := max 0 (getTotalHosts cidr - 2)

/-- Descending scan of findSuitableCIDR: try prefix c, then c-1, ..., then 1;
none models the throw when no prefix in [1,30] has enough usable hosts. -/
def findFrom (requiredHosts : Int) : Nat → Option Nat
  | 0 => none
  | c + 1 =>
    if getUsableHosts (c + 1) ≥ requiredHosts then some (c + 1)
    else findFrom requiredHosts c

/-- Source findSuitableCIDR: scan prefixes 30 down to 1, return the first one
whose usable-host count reaches requiredHosts; throw otherwise. -/
def findSuitableCIDR (requiredHosts : Int) : Option Nat :=
  findFrom requiredHosts 30

/-! ### Arithmetic facts about the mask -/

theorem getNetworkAddress_eq_div_mul (a c : Nat) (ha : a < 2 ^ 32) (hc : c ≤ 32) :
    getNetworkAddress a c = a / 2 ^ (32 - c) * 2 ^ (32 - c) := by
  have hk : 32 - c ≤ 32 := by omega
  have hmask : maskInt c = (2 ^ (32 - (32 - c)) - 1) <<< (32 - c) := by
    rw [Nat.shiftLeft_eq, Nat.sub_mul, one_mul, ← pow_add]
    unfold maskInt
    congr 2
    omega
  have hrhs : a / 2 ^ (32 - c) * 2 ^ (32 - c) = (a >>> (32 - c)) <<< (32 - c) := by
    rw [Nat.shiftRight_eq_div_pow, Nat.shiftLeft_eq]
  apply Nat.eq_of_testBit_eq
  intro i
  rw [getNetworkAddress, Nat.testBit_and, hmask, hrhs, Nat.testBit_shiftLeft,
    Nat.testBit_shiftLeft, Nat.testBit_shiftRight, Nat.testBit_two_pow_sub_one]
  by_cases hik : 32 - c ≤ i
  · have hidx : 32 - c + (i - (32 - c)) = i := by omega
    rw [hidx]
    by_cases h32 : i < 32
    · have : i - (32 - c) < 32 - (32 - c) := by omega
      simp [hik, this]
    · have hbit : a.testBit i = false := by
        apply Nat.testBit_lt_two_pow
        calc a < 2 ^ 32 := ha
        _ ≤ 2 ^ i := Nat.pow_le_pow_right (by norm_num) (by omega)
      simp [hbit]
  · simp [hik]

theorem getNetworkAddress_le (a c : Nat) : getNetworkAddress a c ≤ a :=
  Nat.and_le_left

theorem getNetworkAddress_lt (a c : Nat) (ha : a < 2 ^ 32) :
    getNetworkAddress a c < 2 ^ 32 :=
  lt_of_le_of_lt (getNetworkAddress_le a c) ha

theorem dvd_getNetworkAddress (a c : Nat) (ha : a < 2 ^ 32) (hc : c ≤ 32) :
    2 ^ (32 - c) ∣ getNetworkAddress a c := by
  rw [getNetworkAddress_eq_div_mul a c ha hc]
  exact Dvd.intro_left _ rfl

theorem getNetworkAddress_of_dvd (a c : Nat) (ha : a < 2 ^ 32) (hc : c ≤ 32)
    (hdvd : 2 ^ (32 - c) ∣ a) : getNetworkAddress a c = a := by
  rw [getNetworkAddress_eq_div_mul a c ha hc, Nat.div_mul_cancel hdvd]

theorem getNetworkAddress_add_size_le (a c : Nat) (ha : a < 2 ^ 32) (hc : c ≤ 32) :
    getNetworkAddress a c + 2 ^ (32 - c) ≤ 2 ^ 32 := by
  rw [getNetworkAddress_eq_div_mul a c ha hc]
  have h1 : a / 2 ^ (32 - c) * 2 ^ (32 - c) + 2 ^ (32 - c) =
      (a / 2 ^ (32 - c) + 1) * 2 ^ (32 - c) := by ring
  rw [h1]
  have h2 : a / 2 ^ (32 - c) + 1 ≤ 2 ^ c := by
    have : a / 2 ^ (32 - c) < 2 ^ c := by
      apply Nat.div_lt_of_lt_mul
      calc a < 2 ^ 32 := ha
      _ = 2 ^ (32 - c) * 2 ^ c := by rw [← pow_add]; congr 1; omega
    omega
  calc (a / 2 ^ (32 - c) + 1) * 2 ^ (32 - c) ≤ 2 ^ c * 2 ^ (32 - c) :=
        Nat.mul_le_mul_right _ h2
  _ = 2 ^ 32 := by rw [← pow_add]; congr 1; omega

/-- Masking with a prefix of length at least 1 does not change the top bit
of the address. -/
theorem getNetworkAddress_topbit (a c : Nat) (ha : a < 2 ^ 32) (hc1 : 1 ≤ c)
    (hc : c ≤ 32) : getNetworkAddress a c / 2 ^ 31 = a / 2 ^ 31 := by
  rw [getNetworkAddress_eq_div_mul a c ha hc]
  have hsplit : (2 : Nat) ^ 31 = 2 ^ (32 - c) * 2 ^ (31 - (32 - c)) := by
    rw [← pow_add]; congr 1; omega
  rw [hsplit, ← Nat.div_div_eq_div_mul, ← Nat.div_div_eq_div_mul,
    Nat.mul_div_cancel _ (by positivity)]

/-- On two values sharing the same top bit, the signed reinterpretation
preserves order and equality. -/
theorem sInt32_lt_iff (a b : Nat) (ha : a < 2 ^ 32) (hb : b < 2 ^ 32)
    (htop : a / 2 ^ 31 = b / 2 ^ 31) : (sInt32 a < sInt32 b ↔ a < b) := by
  have h31 : (2 : Nat) ^ 31 = 2147483648 := by norm_num
  have h32 : (2 : Nat) ^ 32 = 4294967296 := by norm_num
  unfold sInt32
  rw [h31, h32] at *
  split <;> split <;> omega

theorem sInt32_eq_iff (a b : Nat) (ha : a < 2 ^ 32) (hb : b < 2 ^ 32)
    (htop : a / 2 ^ 31 = b / 2 ^ 31) : (sInt32 a = sInt32 b ↔ a = b) := by
  have h31 : (2 : Nat) ^ 31 = 2147483648 := by norm_num
  have h32 : (2 : Nat) ^ 32 = 4294967296 := by norm_num
  unfold sInt32
  rw [h31, h32] at *
  split <;> split <;> omega

/-! ### Characterisation of the prefix search -/

theorem findFrom_eq_none_iff (h : Int) (c : Nat) :
    findFrom h c = none ↔ ∀ p, 1 ≤ p → p ≤ c → getUsableHosts p < h := by
  induction c with
  | zero => simp [findFrom]; omega
  | succ c ih =>
    unfold findFrom
    by_cases hc : getUsableHosts (c + 1) ≥ h
    · rw [if_pos hc]
      constructor
      · intro hcontra; exact absurd hcontra (by simp)
      · intro hall
        exact absurd hc (not_le.mpr (hall (c + 1) (by omega) (by omega)))
    · rw [if_neg hc, ih]
      constructor
      · intro hall p hp1 hpc
        rcases Nat.lt_or_ge p (c + 1) with hlt | hge
        · exact hall p hp1 (by omega)
        · have : p = c + 1 := by omega
          subst this
          omega
      · intro hall p hp1 hpc
        exact hall p hp1 (by omega)

theorem findFrom_eq_some (h : Int) (c p : Nat) (hfind : findFrom h c = some p) :
    1 ≤ p ∧ p ≤ c ∧ getUsableHosts p ≥ h ∧
      ∀ q, p < q → q ≤ c → getUsableHosts q < h := by
  induction c with
  | zero => simp [findFrom] at hfind
  | succ c ih =>
    unfold findFrom at hfind
    by_cases hc : getUsableHosts (c + 1) ≥ h
    · rw [if_pos hc] at hfind
      injection hfind with hfind
      subst hfind
      exact ⟨by omega, le_rfl, hc, fun q hq1 hq2 => by omega⟩
    · rw [if_neg hc] at hfind
      obtain ⟨h1, h2, h3, h4⟩ := ih hfind
      refine ⟨h1, by omega, h3, fun q hq1 hq2 => ?_⟩
      rcases Nat.lt_or_ge q (c + 1) with hlt | hge
      · exact h4 q hq1 (by omega)
      · have : q = c + 1 := by omega
        subst this
        omega

theorem getUsableHosts_antitone (p q : Nat) (hpq : p ≤ q) :
    getUsableHosts q ≤ getUsableHosts p := by
  unfold getUsableHosts getTotalHosts
  have hpow : (2 : Int) ^ (32 - q) ≤ 2 ^ (32 - p) :=
    pow_le_pow_right₀ one_le_two (by omega)
  omega

theorem getUsableHosts_one : getUsableHosts 1 = 2 ^ 31 - 2 := by
  unfold getUsableHosts getTotalHosts
  norm_num

/-! ### Data model -/

/-- Allocation strategy: which child of a subdivision is assigned. -/
inductive Strategy
  | first
  | last
deriving DecidableEq, Repr

/-- One host requirement kept by calculateVLSM, with its original position. -/
structure Requirement where
  hosts : Int
  originalIndex : Nat
  networkNumber : Nat
deriving DecidableEq, Repr

/-- One entry of the availableNetworks pool: the network string is kept as
its unsigned 32-bit address value together with the prefix length. -/
structure Frag where
  addr : Nat
  cidr : Nat
  used : Bool
deriving DecidableEq, Repr

/-- One entry of the results array of performVLSMAllocation.  Address-valued
string fields are kept as their unsigned 32-bit values; the two mask strings
are omitted, being determined by the cidr field. -/
structure AllocResult where
  addr : Nat
  cidr : Nat
  broadcast : Nat
  firstIP : Nat
  lastIP : Nat
  usableHosts : Int
  requiredHosts : Int
  originalIndex : Nat
  networkNumber : Nat
deriving DecidableEq, Repr

/-! ### Stable sort, the observable behaviour of Array.prototype.sort -/

/-- Insert x after every element y with cmp y x ≤ 0 that precedes a larger
element; realises one step of a stable sort by the comparator cmp. -/
def insertCmp (cmp : α → α → Int) (x : α) : List α → List α
  | [] => [x]
  | y :: ys => if cmp y x ≤ 0 then y :: insertCmp cmp x ys else x :: y :: ys

/-- Stable sort by a JavaScript comparator: elements are inserted in input
order, each after all previously placed elements that do not compare
greater.  For a consistent comparator this is the list mandated for
Array.prototype.sort by the language specification. -/
def sortCmp (cmp : α → α → Int) (l : List α) : List α :=
  l.foldl (fun acc y => insertCmp cmp y acc) []

theorem insertCmp_perm (cmp : α → α → Int) (x : α) (l : List α) :
    (insertCmp cmp x l).Perm (x :: l) := by
  induction l with
  | nil => exact List.Perm.refl _
  | cons y ys ih =>
    unfold insertCmp
    by_cases hcmp : cmp y x ≤ 0
    · rw [if_pos hcmp]
      exact (ih.cons y).trans (List.Perm.swap x y ys)
    · rw [if_neg hcmp]

theorem sortCmp_perm (cmp : α → α → Int) (l : List α) :
    (sortCmp cmp l).Perm l := by
  suffices hgen : ∀ (l acc : List α),
      (l.foldl (fun acc y => insertCmp cmp y acc) acc).Perm (acc ++ l) by
    simpa using hgen l []
  intro l
  induction l with
  | nil => simp
  | cons x xs ih =>
    intro acc
    simp only [List.foldl_cons]
    refine (ih (insertCmp cmp x acc)).trans ?_
    refine (List.Perm.append_right xs ((insertCmp_perm cmp x acc))).trans ?_
    simpa using List.perm_middle.symm

theorem insertCmp_pairwise (cmp : α → α → Int) (Q : α → α → Prop)
    (hskew : ∀ a b, 0 < cmp a b → cmp b a < 0)
    (htrans : ∀ a b c, cmp a b < 0 → cmp b c ≤ 0 → cmp a c < 0)
    (x : α) (acc : List α)
    (hacc : acc.Pairwise (fun a b => cmp a b < 0 ∨ (cmp a b = 0 ∧ Q a b)))
    (hQ : ∀ y ∈ acc, Q y x) :
    (insertCmp cmp x acc).Pairwise
      (fun a b => cmp a b < 0 ∨ (cmp a b = 0 ∧ Q a b)) := by
  induction acc with
  | nil => simp [insertCmp]
  | cons y ys ih =>
    rw [List.pairwise_cons] at hacc
    obtain ⟨hy, hys⟩ := hacc
    unfold insertCmp
    by_cases hcmp : cmp y x ≤ 0
    · rw [if_pos hcmp]
      rw [List.pairwise_cons]
      constructor
      · intro z hz
        have hz' : z ∈ x :: ys := (insertCmp_perm cmp x ys).mem_iff.mp hz
        rcases List.mem_cons.mp hz' with hzx | hzys
        · subst hzx
          rcases lt_or_eq_of_le hcmp with hlt | heq
          · exact Or.inl hlt
          · exact Or.inr ⟨heq, hQ y (by simp)⟩
        · exact hy z hzys
      · exact ih hys (fun z hz => hQ z (by simp [hz]))
    · rw [if_neg hcmp]
      rw [List.pairwise_cons]
      constructor
      · intro z hz
        rcases List.mem_cons.mp hz with hzy | hzys
        · rw [hzy]
          exact Or.inl (hskew y x (by omega))
        · have hxy : cmp x y < 0 := hskew y x (by omega)
          rcases hy z hzys with hlt | ⟨heq, _⟩
          · exact Or.inl (htrans x y z hxy (le_of_lt hlt))
          · exact Or.inl (htrans x y z hxy (le_of_eq heq))
      · exact List.Pairwise.cons hy hys

theorem sortCmp_pairwise (cmp : α → α → Int) (Q : α → α → Prop)
    (hskew : ∀ a b, 0 < cmp a b → cmp b a < 0)
    (htrans : ∀ a b c, cmp a b < 0 → cmp b c ≤ 0 → cmp a c < 0)
    (l : List α) (hl : l.Pairwise Q) :
    (sortCmp cmp l).Pairwise
      (fun a b => cmp a b < 0 ∨ (cmp a b = 0 ∧ Q a b)) := by
  suffices hgen : ∀ (l acc : List α), l.Pairwise Q →
      acc.Pairwise (fun a b => cmp a b < 0 ∨ (cmp a b = 0 ∧ Q a b)) →
      (∀ y ∈ acc, ∀ x ∈ l, Q y x) →
      (l.foldl (fun acc y => insertCmp cmp y acc) acc).Pairwise
        (fun a b => cmp a b < 0 ∨ (cmp a b = 0 ∧ Q a b)) by
    exact hgen l [] hl (by simp) (by simp)
  intro l
  induction l with
  | nil => intro acc _ hacc _; simpa using hacc
  | cons x xs ih =>
    intro acc hl hacc hQ
    rw [List.pairwise_cons] at hl
    obtain ⟨hx, hxs⟩ := hl
    simp only [List.foldl_cons]
    refine ih (insertCmp cmp x acc) hxs ?_ ?_
    · exact insertCmp_pairwise cmp Q hskew htrans x acc hacc
        (fun y hy => hQ y hy x (by simp))
    · intro y hy z hz
      have hy' : y ∈ x :: acc := (insertCmp_perm cmp x acc).mem_iff.mp hy
      rcases List.mem_cons.mp hy' with hyx | hyacc
      · subst hyx; exact hx z hz
      · exact hQ y hyacc z (by simp [hz])

/-! ### List surgery facts used for the pool -/

theorem perm_cons_eraseIdx (l : List α) (i : Nat) (x : α) (h : l[i]? = some x) :
    l.Perm (x :: l.eraseIdx i) := by
  induction l generalizing i with
  | nil => simp at h
  | cons y ys ih =>
    cases i with
    | zero =>
      simp only [List.getElem?_cons_zero, Option.some.injEq] at h
      subst h
      exact List.Perm.refl _
    | succ i =>
      simp only [List.getElem?_cons_succ] at h
      have h1 : (y :: ys).Perm (y :: (x :: ys.eraseIdx i)) := (ih i h).cons y
      have h2 : (y :: x :: ys.eraseIdx i).Perm (x :: y :: ys.eraseIdx i) :=
        List.Perm.swap x y _
      exact h1.trans h2

theorem perm_cons_eraseIdx_set (l : List α) (i : Nat) (x y : α)
    (h : l[i]? = some x) : (l.set i y).Perm (y :: l.eraseIdx i) := by
  induction l generalizing i with
  | nil => simp at h
  | cons a as ih =>
    cases i with
    | zero => exact List.Perm.refl _
    | succ i =>
      simp only [List.getElem?_cons_succ] at h
      have h1 : ((a :: as).set (i + 1) y) = a :: as.set i y := rfl
      rw [h1]
      have h2 : (a :: as.set i y).Perm (a :: (y :: as.eraseIdx i)) :=
        (ih i h).cons a
      have h3 : (a :: y :: as.eraseIdx i).Perm (y :: a :: as.eraseIdx i) :=
        List.Perm.swap y a _
      exact h2.trans h3

/-! ### The allocation engine -/

/-- The throw sites of the kernel.  calculateVLSM catches and rethrows with
a wrapping message, which keeps the kinds distinguishable, so the kinds are
propagated unchanged here. -/
inductive VlsmError
  | invalidBaseNetwork
  | noValidRequirements
  | insufficientSpace
  | unsatisfiableHostCount
deriving DecidableEq, Repr

/-- The comparison value used by the best-fit search of
performVLSMAllocation: ipToInt applied to the masked network address, hence
a signed 32-bit integer. -/
def fragKey (f : Frag) : Int := sInt32 (getNetworkAddress f.addr f.cidr)

/-- The best-parent scan of performVLSMAllocation: walk the pool in order,
skip used entries, admit entries whose size can host the target, and keep
the entry with the lowest signed network address, breaking address ties
towards the larger cidr.  The index of the winner is returned with it. -/
def bestFitGo (target : Nat) :
    List Frag → Nat → Option (Nat × Frag) → Option (Nat × Frag)
  | [], _, best => best
  | f :: rest, j, best =>
    if f.used then bestFitGo target rest (j + 1) best
    else if 2 ^ (32 - f.cidr) ≥ (2 ^ (32 - target) : Nat) ∧ f.cidr ≤ target then
      match best with
      | none => bestFitGo target rest (j + 1) (some (j, f))
      | some (j0, b) =>
        if fragKey f < fragKey b ∨ (fragKey f = fragKey b ∧ f.cidr > b.cidr) then
          bestFitGo target rest (j + 1) (some (j, f))
        else bestFitGo target rest (j + 1) (some (j0, b))
    else bestFitGo target rest (j + 1) best

def bestFit (pool : List Frag) (target : Nat) : Option (Nat × Frag) :=
  bestFitGo target pool 0 none

/-- Source getBroadcastAddress: network value plus block size minus one,
normalised by the unsigned shift. -/
def getBroadcastAddress (networkAddr cidr : Nat) : Nat :=
  (networkAddr + 2 ^ (32 - cidr) - 1) % 2 ^ 32

/-- Source getFirstUsableIP: network value plus one, rendered mod 2^32 by
intToIP. -/
def getFirstUsableIP (networkAddr : Nat) : Nat := (networkAddr + 1) % 2 ^ 32

/-- Source getLastUsableIP: broadcast value minus one, rendered mod 2^32 by
intToIP. -/
def getLastUsableIP (broadcastAddr : Nat) : Nat :=
  (broadcastAddr + 2 ^ 32 - 1) % 2 ^ 32

/-- Source generateSubnetDivision: normalise the parent to its network
address, then enumerate the equal-sized children in ascending order. -/
def generateSubnetDivision (parentAddr parentCidr targetCidr : Nat) : List Nat :=
  (List.range (2 ^ (targetCidr - parentCidr))).map
    (fun k => getNetworkAddress parentAddr parentCidr + k * 2 ^ (32 - targetCidr))

/-- The result object literal pushed by both branches of the allocation
loop.  Both branches build the identical fields from the network value and
the target cidr; the subdivision branch passes the assigned child, the
direct branch passes the parent entry verbatim. -/
def buildResult (networkAddr subnetCIDR : Nat) (requirement : Requirement) :
    AllocResult :=
  let broadcast := getBroadcastAddress networkAddr subnetCIDR
  { addr := networkAddr
    cidr := subnetCIDR
    broadcast := broadcast
    firstIP := getFirstUsableIP networkAddr
    lastIP := getLastUsableIP broadcast
    usableHosts := getUsableHosts subnetCIDR
    requiredHosts := requirement.hosts
    originalIndex := requirement.originalIndex
    networkNumber := requirement.networkNumber }

/-- The pool reorder comparator of performVLSMAllocation: used entries sink
to the end, unused entries sort by ascending signed address, then by
ascending cidr. -/
def reorderCmp (a b : Frag) : Int :=
  if a.used ∧ ¬ b.used then 1
  else if ¬ a.used ∧ b.used then -1
  else if a.used ∧ b.used then 0
  else if sInt32 a.addr ≠ sInt32 b.addr then sInt32 a.addr - sInt32 b.addr
  else (a.cidr : Int) - (b.cidr : Int)

/-- The requirement comparator of calculateVLSM: descending host count. -/
def reqCmp (a b : Requirement) : Int := b.hosts - a.hosts

/-- The final result comparator of calculateVLSM: ascending cidr. -/
def resCmp (a b : AllocResult) : Int := (a.cidr : Int) - (b.cidr : Int)

/-- One iteration of the performVLSMAllocation loop body: size the
requirement, find the best parent, then either subdivide it or consume it
directly, and reorder the pool.  Returns the new pool and the pushed
result. -/
def allocStep (strategy : Strategy) (req : Requirement) (pool : List Frag) :
    Except VlsmError (List Frag × AllocResult) :=
  match findSuitableCIDR req.hosts with
  | none => .error .unsatisfiableHostCount
  | some subnetCIDR =>
    match bestFit pool subnetCIDR with
    | none => .error .insufficientSpace
    | some (bestParentIndex, bestParent) =>
      if bestParent.cidr < subnetCIDR then
        let allSubnets :=
          generateSubnetDivision bestParent.addr bestParent.cidr subnetCIDR
        let assignedSubnetIndex : Nat :=
          match strategy with
          | .last => allSubnets.length - 1
          | .first => 0
        let assigned := allSubnets.getD assignedSubnetIndex 0
        let pool1 := pool.eraseIdx bestParentIndex ++
          (allSubnets.eraseIdx assignedSubnetIndex).map
            (fun a => { addr := a, cidr := subnetCIDR, used := false })
        .ok (sortCmp reorderCmp pool1, buildResult assigned subnetCIDR req)
      else
        let pool1 := pool.set bestParentIndex { bestParent with used := true }
        .ok (sortCmp reorderCmp pool1, buildResult bestParent.addr subnetCIDR req)

/-- The main loop of performVLSMAllocation: one iteration per requirement,
threading the availableNetworks pool and the results array. -/
def allocLoop (strategy : Strategy) :
    List Requirement → List Frag → List AllocResult →
      Except VlsmError (List AllocResult × List Frag)
  | [], pool, results => .ok (results, pool)
  | req :: rest, pool, results =>
    match allocStep strategy req pool with
    | .error e => .error e
    | .ok (pool1, result) => allocLoop strategy rest pool1 (results ++ [result])

/-- Source performVLSMAllocation: start from the single base fragment and
run the loop; the result and final pool are both exposed for analysis. -/
def performVLSMAllocation (baseAddr baseCidr : Nat)
    (sortedRequirements : List Requirement) (strategy : Strategy) :
    Except VlsmError (List AllocResult × List Frag) :=
  allocLoop strategy sortedRequirements
    [{ addr := baseAddr, cidr := baseCidr, used := false }] []

/-- The requirement-filter loop of calculateVLSM, carrying the running
index: an entry is kept when it is present (not undefined or 0, which are
falsy) and greater than 0. -/
def buildValidFrom : Nat → List (Option Int) → List Requirement
  | _, [] => []
  | i, r :: rest =>
    (match r with
     | some v => if v > 0 then [⟨v, i, i + 1⟩] else []
     | none => []) ++ buildValidFrom (i + 1) rest

def buildValidRequirements (hostRequirements : List (Option Int)) :
    List Requirement :=
  buildValidFrom 0 hostRequirements

/-- Source calculateVLSM over the parsed base network: validate the prefix
range, filter the requirements, sort them by descending host count, run the
allocation, and sort the results by ascending cidr.  The string-level parse
of the base argument is modelled separately at the string layer below. -/
def calculateVLSM (baseAddr baseCidr : Nat)
    (hostRequirements : List (Option Int)) (strategy : Strategy) :
    Except VlsmError (List AllocResult) :=
  if baseCidr < 1 ∨ 30 < baseCidr then .error .invalidBaseNetwork
  else
    let validRequirements := buildValidRequirements hostRequirements
    if validRequirements.isEmpty then .error .noValidRequirements
    else
      let sortedRequirements := sortCmp reqCmp validRequirements
      match performVLSMAllocation baseAddr baseCidr sortedRequirements
          strategy with
      | .error e => .error e
      | .ok (results, _) => .ok (sortCmp resCmp results)

/-! ### C2: minimal-prefix search -/

theorem getUsableHosts_eq (c : Nat) (hc : c ≤ 31) :
    getUsableHosts c = 2 ^ (32 - c) - 2 := by
  unfold getUsableHosts getTotalHosts
  have h2 : (2 : Int) ^ 1 ≤ 2 ^ (32 - c) := pow_le_pow_right₀ one_le_two (by omega)
  simp only [pow_one] at h2
  omega

/-- C2: for every host count h with 1 ≤ h ≤ 2^31 - 2, findSuitableCIDR
returns the largest prefix p in [1,30] whose usable-host capacity is at
least h; it fails exactly when h exceeds the usable capacity 2^31 - 2 of a
/1; and a requirement of exactly 2^k - 2 hosts (2 ≤ k ≤ 31) yields prefix
32 - k. -/
theorem findSuitableCIDR_spec :
    (∀ h : Int, 1 ≤ h → h ≤ 2 ^ 31 - 2 →
      ∃ p, findSuitableCIDR h = some p ∧ 1 ≤ p ∧ p ≤ 30 ∧
        getUsableHosts p ≥ h ∧ ∀ q, p < q → q ≤ 30 → getUsableHosts q < h) ∧
    (∀ h : Int, 2 ^ 31 - 2 < h → findSuitableCIDR h = none) ∧
    (∀ k : Nat, 2 ≤ k → k ≤ 31 →
      findSuitableCIDR ((2 : Int) ^ k - 2) = some (32 - k)) := by
  have husable1 : getUsableHosts 1 = 2 ^ 31 - 2 := by
    rw [getUsableHosts_eq 1 (by omega)]
  have hpart1 : ∀ h : Int, 1 ≤ h → h ≤ 2 ^ 31 - 2 →
      ∃ p, findSuitableCIDR h = some p ∧ 1 ≤ p ∧ p ≤ 30 ∧
        getUsableHosts p ≥ h ∧ ∀ q, p < q → q ≤ 30 → getUsableHosts q < h := by
    intro h h1 h2
    rcases hfind : findSuitableCIDR h with _ | p
    · exfalso
      have hall := (findFrom_eq_none_iff h 30).mp hfind
      have := hall 1 (by omega) (by omega)
      rw [husable1] at this
      omega
    · obtain ⟨hp1, hp30, hcap, hmax⟩ := findFrom_eq_some h 30 p hfind
      exact ⟨p, rfl, hp1, hp30, hcap, hmax⟩
  refine ⟨hpart1, ?_, ?_⟩
  · intro h hbig
    apply (findFrom_eq_none_iff h 30).mpr
    intro p hp1 hp30
    have hanti := getUsableHosts_antitone 1 p hp1
    rw [husable1] at hanti
    omega
  · intro k hk2 hk31
    have hpow2 : (2 : Int) ^ 2 ≤ 2 ^ k := pow_le_pow_right₀ one_le_two hk2
    have hpow31 : (2 : Int) ^ k ≤ 2 ^ 31 := pow_le_pow_right₀ one_le_two hk31
    norm_num at hpow2
    obtain ⟨p, hfind, hp1, hp30, hcap, hmax⟩ :=
      hpart1 ((2 : Int) ^ k - 2) (by omega) (by omega)
    have hcap32k : getUsableHosts (32 - k) = 2 ^ k - 2 := by
      rw [getUsableHosts_eq (32 - k) (by omega)]
      congr 2
      omega
    have hp : p = 32 - k := by
      rcases Nat.lt_trichotomy p (32 - k) with hlt | heq | hgt
      · exfalso
        have := hmax (32 - k) hlt (by omega)
        rw [hcap32k] at this
        omega
      · exact heq
      · exfalso
        have hanti := getUsableHosts_antitone (33 - k) p (by omega)
        have hval : getUsableHosts (33 - k) = 2 ^ (k - 1) - 2 := by
          rw [getUsableHosts_eq (33 - k) (by omega)]
          congr 2
          omega
        have hkk : (2 : Int) ^ k = 2 ^ (k - 1) * 2 := by
          rw [← pow_succ]
          congr 1
          omega
        have hpos : (1 : Int) ≤ 2 ^ (k - 1) := one_le_pow₀ one_le_two
        rw [hval] at hanti
        rw [hkk] at hcap
        omega
    rw [hp] at hfind
    exact hfind

/-- Closed instances of findSuitableCIDR_spec: 100 hosts are satisfiable,
2^31 - 1 hosts are not, and the 2^5 - 2 boundary yields prefix 27. -/
theorem findSuitableCIDR_spec_witness :
    (∃ p, findSuitableCIDR 100 = some p ∧ 1 ≤ p ∧ p ≤ 30 ∧
        getUsableHosts p ≥ 100 ∧
        ∀ q, p < q → q ≤ 30 → getUsableHosts q < 100) ∧
    findSuitableCIDR (2 ^ 31 - 1) = none ∧
    findSuitableCIDR ((2 : Int) ^ 5 - 2) = some 27 :=
  ⟨findSuitableCIDR_spec.1 100 (by norm_num) (by norm_num),
   findSuitableCIDR_spec.2.1 (2 ^ 31 - 1) (by norm_num),
   findSuitableCIDR_spec.2.2 5 (by norm_num) (by norm_num)⟩

/-! ### C3: the best-fit search -/

/-- The admission test of the best-parent scan: unused, block size at least
the target block size, and prefix at most the target prefix. -/
def fits (f : Frag) (target : Nat) : Prop :=
  f.used = false ∧ 2 ^ (32 - f.cidr) ≥ (2 ^ (32 - target) : Nat) ∧
    f.cidr ≤ target

/-- Preference order of the scan, non-strict: lower signed network address,
ties towards larger cidr. -/
def keyLe (f g : Frag) : Prop :=
  fragKey f < fragKey g ∨ (fragKey f = fragKey g ∧ g.cidr ≤ f.cidr)

theorem keyLe_refl (f : Frag) : keyLe f f := Or.inr ⟨rfl, le_rfl⟩

theorem keyLe_trans (f g h : Frag) (h1 : keyLe f g) (h2 : keyLe g h) :
    keyLe f h := by
  unfold keyLe at *
  rcases h1 with h1 | ⟨h1, h1c⟩ <;> rcases h2 with h2 | ⟨h2, h2c⟩
  · exact Or.inl (h1.trans h2)
  · exact Or.inl (h2 ▸ h1)
  · exact Or.inl (h1 ▸ h2)
  · exact Or.inr ⟨h1.trans h2, h2c.trans h1c⟩

/-- The strict replacement test used by the scan when a best entry exists. -/
def betterKey (f g : Frag) : Prop :=
  fragKey f < fragKey g ∨ (fragKey f = fragKey g ∧ f.cidr > g.cidr)

theorem keyLe_of_betterKey (f g : Frag) (h : betterKey f g) : keyLe f g := by
  rcases h with h | ⟨h, hc⟩
  · exact Or.inl h
  · exact Or.inr ⟨h, le_of_lt hc⟩

theorem keyLe_of_not_betterKey (f g : Frag) (h : ¬ betterKey f g) :
    keyLe g f := by
  unfold betterKey at h
  push_neg at h
  obtain ⟨h1, h2⟩ := h
  rcases lt_or_eq_of_le h1 with hlt | heq
  · exact Or.inl hlt
  · exact Or.inr ⟨heq, h2 heq.symm⟩

theorem keyLe_trans_better (f g h : Frag) (h1 : keyLe f g)
    (h2 : betterKey g h) : keyLe f h :=
  keyLe_trans f g h h1 (keyLe_of_betterKey g h h2)

/-- Full characterisation of the scan when it returns an entry: the entry
is the initial best or an admitted pool entry at its reported index, and it
is weakly preferred to every admitted entry of the scanned list and to the
initial best. -/
theorem bestFitGo_some (target : Nat) (l : List Frag) :
    ∀ (j : Nat) (best : Option (Nat × Frag)) (i : Nat) (f : Frag),
      bestFitGo target l j best = some (i, f) →
        (best = some (i, f) ∨ (j ≤ i ∧ l[i - j]? = some f ∧ fits f target)) ∧
        (∀ g ∈ l, fits g target → keyLe f g) ∧
        (∀ i0 b, best = some (i0, b) → keyLe f b) := by
  induction l with
  | nil =>
    intro j best i f hrun
    simp only [bestFitGo] at hrun
    subst hrun
    refine ⟨Or.inl rfl, by simp, ?_⟩
    intro i0 b hb
    injection hb with hb
    injection hb with hb1 hb2
    subst hb2
    exact keyLe_refl f
  | cons g rest ih =>
    intro j best i f hrun
    simp only [bestFitGo] at hrun
    by_cases hused : g.used
    · rw [if_pos hused] at hrun
      obtain ⟨hloc, hmin, hbest⟩ := ih (j + 1) best i f hrun
      refine ⟨?_, ?_, hbest⟩
      · rcases hloc with hl | ⟨hji, hidx, hfits⟩
        · exact Or.inl hl
        · refine Or.inr ⟨by omega, ?_, hfits⟩
          have : i - j = (i - (j + 1)) + 1 := by omega
          rw [this, List.getElem?_cons_succ]
          exact hidx
      · intro x hx hfx
        rcases List.mem_cons.mp hx with hxg | hxr
        · exfalso
          rw [hxg] at hfx
          exact absurd hfx.1 (by simp [hused])
        · exact hmin x hxr hfx
    · rw [if_neg hused] at hrun
      by_cases hcond : 2 ^ (32 - g.cidr) ≥ (2 ^ (32 - target) : Nat) ∧
          g.cidr ≤ target
      · rw [if_pos hcond] at hrun
        have hfitsg : fits g target := ⟨by simpa using hused, hcond.1, hcond.2⟩
        have hstep : ∀ (best' : Option (Nat × Frag)),
            bestFitGo target rest (j + 1) best' = some (i, f) →
            (best' = some (i, f) ∨
              (j ≤ i ∧ (g :: rest)[i - j]? = some f ∧ fits f target)) ∧
            (∀ x ∈ rest, fits x target → keyLe f x) ∧
            (∀ i0 b, best' = some (i0, b) → keyLe f b) := by
          intro best' hrun'
          obtain ⟨hloc, hmin, hbest⟩ := ih (j + 1) best' i f hrun'
          refine ⟨?_, hmin, hbest⟩
          rcases hloc with hl | ⟨hji, hidx, hfits⟩
          · exact Or.inl hl
          · refine Or.inr ⟨by omega, ?_, hfits⟩
            have : i - j = (i - (j + 1)) + 1 := by omega
            rw [this, List.getElem?_cons_succ]
            exact hidx
        rcases best with _ | ⟨j0, b⟩
        · obtain ⟨hloc, hmin, hbest⟩ := hstep (some (j, g)) hrun
          have hfg : keyLe f g := hbest j g rfl
          refine ⟨?_, ?_, by simp⟩
          · rcases hloc with hl | hr
            · injection hl with hl
              injection hl with hl1 hl2
              subst hl1; subst hl2
              exact Or.inr ⟨le_rfl, by simp, hfitsg⟩
            · exact Or.inr hr
          · intro x hx hfx
            rcases List.mem_cons.mp hx with hxg | hxr
            · rw [hxg]; exact hfg
            · exact hmin x hxr hfx
        · have hrun2 :
              (if fragKey g < fragKey b ∨ (fragKey g = fragKey b ∧ g.cidr > b.cidr)
                then bestFitGo target rest (j + 1) (some (j, g))
                else bestFitGo target rest (j + 1) (some (j0, b))) =
                some (i, f) := hrun
          by_cases hrepl : betterKey g b
          · rw [if_pos (by exact hrepl)] at hrun2
            obtain ⟨hloc, hmin, hbest⟩ := hstep (some (j, g)) hrun2
            have hfg : keyLe f g := hbest j g rfl
            refine ⟨?_, ?_, ?_⟩
            · rcases hloc with hl | hr
              · injection hl with hl
                injection hl with hl1 hl2
                subst hl1; subst hl2
                exact Or.inr ⟨le_rfl, by simp, hfitsg⟩
              · exact Or.inr hr
            · intro x hx hfx
              rcases List.mem_cons.mp hx with hxg | hxr
              · rw [hxg]; exact hfg
              · exact hmin x hxr hfx
            · intro i0' b' hb'
              injection hb' with hb'
              injection hb' with hb1 hb2
              subst hb2
              exact keyLe_trans_better f g b hfg hrepl
          · rw [if_neg (by exact hrepl)] at hrun2
            obtain ⟨hloc, hmin, hbest⟩ := hstep (some (j0, b)) hrun2
            have hfb : keyLe f b := hbest j0 b rfl
            have hbg : keyLe b g := keyLe_of_not_betterKey g b hrepl
            refine ⟨?_, ?_, ?_⟩
            · rcases hloc with hl | hr
              · exact Or.inl hl
              · exact Or.inr hr
            · intro x hx hfx
              rcases List.mem_cons.mp hx with hxg | hxr
              · rw [hxg]
                exact keyLe_trans f b g hfb hbg
              · exact hmin x hxr hfx
            · intro i0' b' hb'
              injection hb' with hb'
              injection hb' with hb1 hb2
              subst hb2
              exact hfb
      · rw [if_neg hcond] at hrun
        obtain ⟨hloc, hmin, hbest⟩ := ih (j + 1) best i f hrun
        refine ⟨?_, ?_, hbest⟩
        · rcases hloc with hl | ⟨hji, hidx, hfits⟩
          · exact Or.inl hl
          · refine Or.inr ⟨by omega, ?_, hfits⟩
            have : i - j = (i - (j + 1)) + 1 := by omega
            rw [this, List.getElem?_cons_succ]
            exact hidx
        · intro x hx hfx
          rcases List.mem_cons.mp hx with hxg | hxr
          · exfalso
            rw [hxg] at hfx
            exact hcond ⟨hfx.2.1, hfx.2.2⟩
          · exact hmin x hxr hfx

theorem bestFitGo_none (target : Nat) (l : List Frag) :
    ∀ (j : Nat) (best : Option (Nat × Frag)),
      (bestFitGo target l j best = none ↔
        best = none ∧ ∀ f ∈ l, ¬ fits f target) := by
  induction l with
  | nil => intro j best; simp [bestFitGo]
  | cons g rest ih =>
    intro j best
    simp only [bestFitGo]
    by_cases hused : g.used
    · rw [if_pos hused, ih]
      constructor
      · rintro ⟨h1, h2⟩
        refine ⟨h1, ?_⟩
        intro f hf
        rcases List.mem_cons.mp hf with hfg | hfr
        · rw [hfg]
          intro hfits
          exact absurd hfits.1 (by simp [hused])
        · exact h2 f hfr
      · rintro ⟨h1, h2⟩
        exact ⟨h1, fun f hf => h2 f (by simp [hf])⟩
    · rw [if_neg hused]
      by_cases hcond : 2 ^ (32 - g.cidr) ≥ (2 ^ (32 - target) : Nat) ∧
          g.cidr ≤ target
      · rw [if_pos hcond]
        have hfitsg : fits g target := ⟨by simpa using hused, hcond.1, hcond.2⟩
        constructor
        · intro hrun
          exfalso
          rcases best with _ | ⟨j0, b⟩
          · have := (ih (j + 1) (some (j, g))).mp hrun
            simp at this
          · have hrun2 :
                (if fragKey g < fragKey b ∨
                    (fragKey g = fragKey b ∧ g.cidr > b.cidr)
                  then bestFitGo target rest (j + 1) (some (j, g))
                  else bestFitGo target rest (j + 1) (some (j0, b))) =
                  none := hrun
            by_cases hrepl : betterKey g b
            · rw [if_pos (by exact hrepl)] at hrun2
              have := (ih (j + 1) (some (j, g))).mp hrun2
              simp at this
            · rw [if_neg (by exact hrepl)] at hrun2
              have := (ih (j + 1) (some (j0, b))).mp hrun2
              simp at this
        · rintro ⟨h1, h2⟩
          exact absurd hfitsg (h2 g (by simp))
      · rw [if_neg hcond]
        rw [ih]
        constructor
        · rintro ⟨h1, h2⟩
          refine ⟨h1, ?_⟩
          intro f hf
          rcases List.mem_cons.mp hf with hfg | hfr
          · rw [hfg]
            intro hfits
            exact hcond ⟨hfits.2.1, hfits.2.2⟩
          · exact h2 f hfr
        · rintro ⟨h1, h2⟩
          exact ⟨h1, fun f hf => h2 f (by simp [hf])⟩

/-- Under the wellformedness every reachable pool enjoys (addresses below
2^32, prefixes in [1,32], all fragments inside one base block so all
addresses share the top bit), the admission test reduces to the prefix
test, and signed comparisons of masked addresses agree with unsigned
ones. -/
theorem fits_iff (f : Frag) (target : Nat) (htarget : target ≤ 32)
    (hwf : f.cidr ≤ 32) :
    fits f target ↔ (f.used = false ∧ f.cidr ≤ target) := by
  unfold fits
  constructor
  · rintro ⟨h1, _, h3⟩
    exact ⟨h1, h3⟩
  · rintro ⟨h1, h2⟩
    refine ⟨h1, ?_, h2⟩
    exact Nat.pow_le_pow_right (by omega) (by omega)

/-- C3: for every pool state reachable inside one allocate call (all
fragments wellformed and inside one base block of prefix at least 1, so
they share the top address bit) and every target prefix at most 32, the
best-fit scan fails exactly when no unused fragment has prefix at most the
target, and otherwise returns an unused pool entry, at its index, with
prefix at most the target, whose masked network address is minimal among
all such entries, ties broken towards the larger prefix. -/
theorem bestFit_selects_lowest (pool : List Frag) (target : Nat)
    (htarget : target ≤ 32)
    (hwf : ∀ f ∈ pool, f.addr < 2 ^ 32 ∧ 1 ≤ f.cidr ∧ f.cidr ≤ 32)
    (htop : ∀ f ∈ pool, ∀ g ∈ pool, f.addr / 2 ^ 31 = g.addr / 2 ^ 31) :
    (bestFit pool target = none ↔
      ∀ f ∈ pool, ¬ (f.used = false ∧ f.cidr ≤ target)) ∧
    (∀ i f, bestFit pool target = some (i, f) →
      pool[i]? = some f ∧ f.used = false ∧ f.cidr ≤ target ∧
      ∀ g ∈ pool, g.used = false → g.cidr ≤ target →
        getNetworkAddress f.addr f.cidr < getNetworkAddress g.addr g.cidr ∨
        (getNetworkAddress f.addr f.cidr = getNetworkAddress g.addr g.cidr ∧
          g.cidr ≤ f.cidr)) := by
  constructor
  · rw [bestFit, bestFitGo_none]
    constructor
    · rintro ⟨-, hall⟩ f hf hbad
      exact hall f hf ((fits_iff f target htarget (hwf f hf).2.2).mpr hbad)
    · intro hall
      refine ⟨rfl, fun f hf hfits => ?_⟩
      exact hall f hf ((fits_iff f target htarget (hwf f hf).2.2).mp hfits)
  · intro i f hrun
    obtain ⟨hloc, hmin, -⟩ := bestFitGo_some target pool 0 none i f hrun
    rcases hloc with hl | ⟨-, hidx, hfits⟩
    · exact absurd hl (by simp)
    · rw [Nat.sub_zero] at hidx
      have hfmem : f ∈ pool := List.getElem?_mem hidx
      have hffit := (fits_iff f target htarget (hwf f hfmem).2.2).mp hfits
      refine ⟨hidx, hffit.1, hffit.2, ?_⟩
      intro g hg hgu hgc
      have hkey := hmin g hg
        ((fits_iff g target htarget (hwf g hg).2.2).mpr ⟨hgu, hgc⟩)
      have hfwf := hwf f hfmem
      have hgwf := hwf g hg
      have hflt : getNetworkAddress f.addr f.cidr < 2 ^ 32 :=
        getNetworkAddress_lt _ _ hfwf.1
      have hglt : getNetworkAddress g.addr g.cidr < 2 ^ 32 :=
        getNetworkAddress_lt _ _ hgwf.1
      have hftop : getNetworkAddress f.addr f.cidr / 2 ^ 31 =
          f.addr / 2 ^ 31 :=
        getNetworkAddress_topbit _ _ hfwf.1 hfwf.2.1 hfwf.2.2
      have hgtop : getNetworkAddress g.addr g.cidr / 2 ^ 31 =
          g.addr / 2 ^ 31 :=
        getNetworkAddress_topbit _ _ hgwf.1 hgwf.2.1 hgwf.2.2
      have hsame : getNetworkAddress f.addr f.cidr / 2 ^ 31 =
          getNetworkAddress g.addr g.cidr / 2 ^ 31 := by
        rw [hftop, hgtop]
        exact htop f hfmem g hg
      rcases hkey with hlt | ⟨heq, hcle⟩
      · exact Or.inl
          ((sInt32_lt_iff _ _ hflt hglt hsame).mp hlt)
      · exact Or.inr
          ⟨(sInt32_eq_iff _ _ hflt hglt hsame).mp heq, hcle⟩

/-- Closed instance of bestFit_selects_lowest on a two-entry pool: between
the fragments 192.168.1.64/26 and 192.168.1.0/25 with target prefix 26, the
scan must report an unused entry of prefix at most 26 at its own index. -/
theorem bestFit_selects_lowest_witness :
    (([{ addr := 3232235840, cidr := 26, used := false },
       { addr := 3232235776, cidr := 25, used := false }] :
        List Frag)[1]? = some { addr := 3232235776, cidr := 25, used := false }) ∧
    ({ addr := 3232235776, cidr := 25, used := false } : Frag).used = false := by
  have h := (bestFit_selects_lowest
    [{ addr := 3232235840, cidr := 26, used := false },
     { addr := 3232235776, cidr := 25, used := false }] 26
    (by norm_num) (by decide) (by decide)).2 1
    { addr := 3232235776, cidr := 25, used := false } (by decide)
  exact ⟨h.1, h.2.1⟩

/-! ### C1: address-space partition bookkeeping -/

/-- The address range covered by a CIDR block given as address and prefix:
the half-open interval of length 2^(32-cidr) starting at the network
address of the pair (the source normalises through getNetworkAddress
whenever it subdivides, so the range of a pair is the range of its masked
network address). -/
def rangeOf (p : Nat × Nat) : Set Nat :=
  Set.Ico (getNetworkAddress p.1 p.2)
    (getNetworkAddress p.1 p.2 + 2 ^ (32 - p.2))

/-- Union of the ranges of a list of blocks. -/
def unionOf (l : List (Nat × Nat)) : Set Nat := ⋃ p ∈ l, rangeOf p

/-- A list of blocks partitions a region: pairwise disjoint ranges whose
union is exactly the region. -/
def partitionOf (l : List (Nat × Nat)) (R : Set Nat) : Prop :=
  l.Pairwise (fun p q => Disjoint (rangeOf p) (rangeOf q)) ∧ unionOf l = R

theorem mem_unionOf (l : List (Nat × Nat)) (x : Nat) :
    x ∈ unionOf l ↔ ∃ p ∈ l, x ∈ rangeOf p := by
  simp [unionOf]

theorem unionOf_perm (l l' : List (Nat × Nat)) (h : l.Perm l') :
    unionOf l = unionOf l' := by
  ext x
  rw [mem_unionOf, mem_unionOf]
  constructor
  · rintro ⟨p, hp, hx⟩
    exact ⟨p, h.mem_iff.mp hp, hx⟩
  · rintro ⟨p, hp, hx⟩
    exact ⟨p, h.mem_iff.mpr hp, hx⟩

theorem unionOf_append (l l' : List (Nat × Nat)) :
    unionOf (l ++ l') = unionOf l ∪ unionOf l' := by
  ext x
  rw [Set.mem_union, mem_unionOf, mem_unionOf, mem_unionOf]
  constructor
  · rintro ⟨p, hp, hx⟩
    rcases List.mem_append.mp hp with h | h
    · exact Or.inl ⟨p, h, hx⟩
    · exact Or.inr ⟨p, h, hx⟩
  · rintro (⟨p, hp, hx⟩ | ⟨p, hp, hx⟩)
    · exact ⟨p, List.mem_append.mpr (Or.inl hp), hx⟩
    · exact ⟨p, List.mem_append.mpr (Or.inr hp), hx⟩

theorem unionOf_cons (p : Nat × Nat) (l : List (Nat × Nat)) :
    unionOf (p :: l) = rangeOf p ∪ unionOf l := by
  have : p :: l = [p] ++ l := rfl
  rw [this, unionOf_append]
  congr 1
  ext x
  rw [mem_unionOf]
  simp

theorem partitionOf_perm (l l' : List (Nat × Nat)) (R : Set Nat)
    (h : l.Perm l') (hpart : partitionOf l R) : partitionOf l' R := by
  obtain ⟨hpw, hun⟩ := hpart
  refine ⟨hpw.perm h (fun hd => hd.symm), ?_⟩
  rw [← unionOf_perm l l' h]
  exact hun

theorem rangeOf_subset_of_mem (l : List (Nat × Nat)) (R : Set Nat)
    (hpart : partitionOf l R) (p : Nat × Nat) (hp : p ∈ l) :
    rangeOf p ⊆ R := by
  rw [← hpart.2]
  intro x hx
  exact (mem_unionOf l x).mpr ⟨p, hp, hx⟩

/-- Replacing one block of a partition by any partition of that block
yields a partition of the same region. -/
theorem partition_replace (p : Nat × Nat) (rest children : List (Nat × Nat))
    (R : Set Nat) (hpart : partitionOf (p :: rest) R)
    (hchild : partitionOf children (rangeOf p)) :
    partitionOf (rest ++ children) R := by
  obtain ⟨hpw, hun⟩ := hpart
  rw [List.pairwise_cons] at hpw
  obtain ⟨hphead, hprest⟩ := hpw
  constructor
  · rw [List.pairwise_append]
    refine ⟨hprest, hchild.1, ?_⟩
    intro a ha b hb
    have hbp : rangeOf b ⊆ rangeOf p :=
      rangeOf_subset_of_mem children (rangeOf p) hchild b hb
    have hap : Disjoint (rangeOf a) (rangeOf p) := (hphead a ha).symm
    exact hap.mono_right hbp
  · rw [unionOf_append, hchild.2, ← hun, unionOf_cons]
    exact Set.union_comm _ _

/-- The children produced by generateSubnetDivision are wellformed, aligned
to the target prefix, and partition the range of the parent block. -/
theorem generateSubnetDivision_partition (a pc tc : Nat) (ha : a < 2 ^ 32)
    (hpt : pc ≤ tc) (ht : tc ≤ 32) :
    (∀ ad ∈ generateSubnetDivision a pc tc,
      ad < 2 ^ 32 ∧ getNetworkAddress ad tc = ad) ∧
    partitionOf ((generateSubnetDivision a pc tc).map fun ad => (ad, tc))
      (rangeOf (a, pc)) ∧
    (generateSubnetDivision a pc tc).length = 2 ^ (tc - pc) := by
  set mp := getNetworkAddress a pc with hmp
  set s := (2 : Nat) ^ (32 - tc) with hs
  set N := (2 : Nat) ^ (tc - pc) with hN
  have hspos : 0 < s := Nat.pos_pow_of_pos _ (by norm_num)
  have hNs : N * s = 2 ^ (32 - pc) := by
    rw [hN, hs, ← pow_add]
    congr 1
    omega
  have hmp32 : mp + 2 ^ (32 - pc) ≤ 2 ^ 32 :=
    getNetworkAddress_add_size_le a pc ha (by omega)
  have hdvd_mp : s ∣ mp := by
    refine dvd_trans ?_ (dvd_getNetworkAddress a pc ha (by omega))
    exact pow_dvd_pow 2 (by omega)
  have hchild_facts : ∀ k, k < N →
      mp + k * s < 2 ^ 32 ∧ getNetworkAddress (mp + k * s) tc = mp + k * s := by
    intro k hk
    have hbound : mp + k * s + s ≤ 2 ^ 32 := by
      have h1 : (k + 1) * s ≤ N * s := Nat.mul_le_mul_right s (by omega)
      have h2 : (k + 1) * s = k * s + s := by ring
      omega
    have hlt : mp + k * s < 2 ^ 32 := by omega
    refine ⟨hlt, getNetworkAddress_of_dvd _ _ hlt (by omega) ?_⟩
    exact Nat.dvd_add hdvd_mp (Dvd.intro k (by ring))
  have hmem_iff : ∀ ad, ad ∈ generateSubnetDivision a pc tc ↔
      ∃ k, k < N ∧ ad = mp + k * s := by
    intro ad
    unfold generateSubnetDivision
    rw [List.mem_map]
    constructor
    · rintro ⟨k, hk, rfl⟩
      exact ⟨k, List.mem_range.mp hk, rfl⟩
    · rintro ⟨k, hk, rfl⟩
      exact ⟨k, List.mem_range.mpr hk, rfl⟩
  refine ⟨?_, ⟨?_, ?_⟩, ?_⟩
  · intro ad had
    obtain ⟨k, hk, rfl⟩ := (hmem_iff ad).mp had
    exact hchild_facts k hk
  · rw [List.pairwise_iff_getElem]
    intro i j hi hj hij
    have hlen : (generateSubnetDivision a pc tc).length = N := by
      unfold generateSubnetDivision
      rw [List.length_map, List.length_range]
    simp only [List.length_map, hlen] at hi hj
    have hgi : ((generateSubnetDivision a pc tc).map fun ad => (ad, tc))[i] =
        (mp + i * s, tc) := by
      unfold generateSubnetDivision
      simp [hi]
    have hgj : ((generateSubnetDivision a pc tc).map fun ad => (ad, tc))[j] =
        (mp + j * s, tc) := by
      unfold generateSubnetDivision
      simp [hj]
    rw [hgi, hgj, Set.disjoint_left]
    intro x hxa hxb
    simp only [rangeOf] at hxa hxb
    rw [(hchild_facts i hi).2, Set.mem_Ico] at hxa
    rw [(hchild_facts j hj).2, Set.mem_Ico] at hxb
    have h1 : (i + 1) * s ≤ j * s := Nat.mul_le_mul_right s (by omega)
    have h2 : (i + 1) * s = i * s + s := by ring
    omega
  · -- union of the children ranges is the parent range
    ext x
    rw [mem_unionOf]
    constructor
    · rintro ⟨p, hp, hx⟩
      obtain ⟨ad, had, rfl⟩ := List.mem_map.mp hp
      obtain ⟨k, hk, rfl⟩ := (hmem_iff ad).mp had
      simp only [rangeOf] at hx ⊢
      rw [(hchild_facts k hk).2] at hx
      rw [Set.mem_Ico] at hx ⊢
      have h1 : (k + 1) * s ≤ 2 ^ (32 - pc) := by
        rw [← hNs]
        exact Nat.mul_le_mul_right s (by omega)
      have h2 : (k + 1) * s = k * s + s := by ring
      rw [← hmp]
      omega
    · intro hx
      simp only [rangeOf, ← hmp, Set.mem_Ico] at hx
      set k := (x - mp) / s with hkdef
      have hkN : k < N := by
        rw [hkdef, Nat.div_lt_iff_lt_mul hspos, hNs]
        omega
      have hmod : s * k + (x - mp) % s = x - mp := by
        rw [hkdef]
        exact Nat.div_add_mod (x - mp) s
      have hmodlt : (x - mp) % s < s := Nat.mod_lt _ hspos
      have hks : k * s = s * k := Nat.mul_comm k s
      refine ⟨(mp + k * s, tc), List.mem_map.mpr
        ⟨mp + k * s, (hmem_iff _).mpr ⟨k, hkN, rfl⟩, rfl⟩, ?_⟩
      simp only [rangeOf]
      rw [(hchild_facts k hkN).2, Set.mem_Ico]
      omega
  · unfold generateSubnetDivision
    rw [List.length_map, List.length_range]

/-- Wellformedness of a pool entry: address below 2^32 and prefix within
the range every fragment of a run carries (the base is validated into
[1,30] and every child prefix comes from findSuitableCIDR). -/
def wfFrag (f : Frag) : Prop := f.addr < 2 ^ 32 ∧ 1 ≤ f.cidr ∧ f.cidr ≤ 30

/-- The blocks of the unused fragments of a pool. -/
def fragPairs (pool : List Frag) : List (Nat × Nat) :=
  (pool.filter fun f => !f.used).map fun f => (f.addr, f.cidr)

/-- The blocks assigned in a results list. -/
def resultPairs (results : List AllocResult) : List (Nat × Nat) :=
  results.map fun r => (r.addr, r.cidr)

theorem mcoe_append {α : Type _} (l l' : List α) :
    ((l ++ l' : List α) : Multiset α) = ↑l + ↑l' := rfl

theorem mcoe_cons {α : Type _} (x : α) (l : List α) :
    ((x :: l : List α) : Multiset α) = {x} + ↑l := by
  rw [Multiset.singleton_add]
  rfl

theorem mcoe_nil {α : Type _} : (([] : List α) : Multiset α) = 0 := rfl

theorem perm_shuffle {α : Type _} (X L E : List α) (a : α) :
    ((X ++ L) ++ (a :: E)).Perm ((X ++ E) ++ (L ++ [a])) := by
  rw [← Multiset.coe_eq_coe]
  simp only [mcoe_append, mcoe_cons, mcoe_nil]
  abel

theorem perm_rotate {α : Type _} (X L : List α) (a : α) :
    (a :: (X ++ L)).Perm (X ++ (L ++ [a])) := by
  rw [← Multiset.coe_eq_coe]
  simp only [mcoe_append, mcoe_cons, mcoe_nil]
  abel

theorem fragPairs_perm (pool pool' : List Frag) (h : pool.Perm pool') :
    (fragPairs pool).Perm (fragPairs pool') :=
  (h.filter _).map _

theorem fragPairs_append (A B : List Frag) :
    fragPairs (A ++ B) = fragPairs A ++ fragPairs B := by
  simp [fragPairs, List.filter_append]

theorem fragPairs_cons_unused (f : Frag) (l : List Frag)
    (h : f.used = false) :
    fragPairs (f :: l) = (f.addr, f.cidr) :: fragPairs l := by
  simp [fragPairs, List.filter_cons, h]

theorem fragPairs_cons_used (f : Frag) (l : List Frag) (h : f.used = true) :
    fragPairs (f :: l) = fragPairs l := by
  simp [fragPairs, List.filter_cons, h]

theorem fragPairs_map_new (l : List Nat) (t : Nat) :
    fragPairs (l.map fun a => { addr := a, cidr := t, used := false }) =
      l.map fun a => (a, t) := by
  induction l with
  | nil => rfl
  | cons a l ih =>
    simp only [List.map_cons]
    rw [fragPairs_cons_unused _ _ rfl, ih]

theorem findSuitableCIDR_bounds (h : Int) (t : Nat)
    (hfind : findSuitableCIDR h = some t) : 1 ≤ t ∧ t ≤ 30 := by
  obtain ⟨h1, h2, -, -⟩ := findFrom_eq_some h 30 t hfind
  exact ⟨h1, h2⟩

/-- Subdivision branch of one allocation step: removing the parent and
inserting all children but the assigned one keeps the pool wellformed; the
unused blocks together with the carried list and the newly assigned block
still partition the region. -/
theorem allocStep_sub_aux (req : Requirement) (pool pool1 : List Frag)
    (result : AllocResult) (t i aIdx : Nat) (parent : Frag)
    (L : List (Nat × Nat)) (R : Set Nat)
    (hwf : ∀ f ∈ pool, wfFrag f)
    (hpart : partitionOf (fragPairs pool ++ L) R)
    (hidx : pool[i]? = some parent)
    (hunused : parent.used = false)
    (ht1 : 1 ≤ t) (ht30 : t ≤ 30)
    (hsub : parent.cidr < t)
    (haIdx : aIdx < (generateSubnetDivision parent.addr parent.cidr t).length)
    (hpool1 : sortCmp reorderCmp (pool.eraseIdx i ++
      ((generateSubnetDivision parent.addr parent.cidr t).eraseIdx aIdx).map
        (fun a => { addr := a, cidr := t, used := false })) = pool1)
    (hresult : buildResult
      ((generateSubnetDivision parent.addr parent.cidr t).getD aIdx 0) t req =
      result) :
    (∀ f ∈ pool1, wfFrag f) ∧
      partitionOf (fragPairs pool1 ++ (L ++ [(result.addr, result.cidr)])) R := by
  subst hpool1
  subst hresult
  set subs := generateSubnetDivision parent.addr parent.cidr t with hsubs
  set assigned := subs.getD aIdx 0 with hassigned
  have hparent_mem : parent ∈ pool := List.getElem?_mem hidx
  have hpwf := hwf parent hparent_mem
  obtain ⟨hfacts, hcpart, hlen⟩ := generateSubnetDivision_partition
    parent.addr parent.cidr t hpwf.1 (le_of_lt hsub) (by omega)
  have hassigned_get : assigned = subs[aIdx] := by
    rw [hassigned, List.getD_eq_getElem?_getD, List.getElem?_eq_getElem haIdx]
    rfl
  have hassigned_idx : subs[aIdx]? = some assigned := by
    rw [hassigned_get, List.getElem?_eq_getElem haIdx]
  have hchild_perm : subs.Perm (assigned :: subs.eraseIdx aIdx) :=
    perm_cons_eraseIdx subs aIdx assigned hassigned_idx
  have hpool_perm : pool.Perm (parent :: pool.eraseIdx i) :=
    perm_cons_eraseIdx pool i parent hidx
  have hres_addr :
      (buildResult assigned t req).addr = assigned := rfl
  have hres_cidr : (buildResult assigned t req).cidr = t := rfl
  rw [hres_addr, hres_cidr]
  constructor
  · intro f hf
    have hf' := (sortCmp_perm reorderCmp _).mem_iff.mp hf
    rcases List.mem_append.mp hf' with hfe | hfn
    · exact hwf f ((List.eraseIdx_sublist pool i).subset hfe)
    · obtain ⟨ad, had, rfl⟩ := List.mem_map.mp hfn
      have hadsubs : ad ∈ subs := (List.eraseIdx_sublist subs aIdx).subset had
      exact ⟨(hfacts ad hadsubs).1, ht1, ht30⟩
  · set X := fragPairs (pool.eraseIdx i) with hX
    set E := (subs.eraseIdx aIdx).map (fun ad => (ad, t)) with hE
    have hfp_pool : (fragPairs pool).Perm ((parent.addr, parent.cidr) :: X) := by
      have hp := fragPairs_perm _ _ hpool_perm
      rwa [fragPairs_cons_unused parent _ hunused] at hp
    have hsrc : partitionOf ((parent.addr, parent.cidr) :: (X ++ L)) R := by
      refine partitionOf_perm _ _ _ ?_ hpart
      exact hfp_pool.append_right L
    have hrepl := partition_replace (parent.addr, parent.cidr) (X ++ L)
      (subs.map fun ad => (ad, t)) R hsrc hcpart
    refine partitionOf_perm _ _ _ ?_ hrepl
    have hfp1 : (fragPairs (sortCmp reorderCmp (pool.eraseIdx i ++
        (subs.eraseIdx aIdx).map
          (fun a => { addr := a, cidr := t, used := false })))).Perm (X ++ E) := by
      refine ((fragPairs_perm _ _ (sortCmp_perm reorderCmp _)).trans ?_)
      rw [fragPairs_append, fragPairs_map_new]
    have hstep1 : ((X ++ L) ++ (subs.map fun ad => (ad, t))).Perm
        ((X ++ L) ++ ((assigned, t) :: E)) := by
      refine List.Perm.append_left (X ++ L) ?_
      have := hchild_perm.map (fun ad => (ad, t))
      simpa using this
    have hstep2 : ((X ++ L) ++ ((assigned, t) :: E)).Perm
        ((X ++ E) ++ (L ++ [(assigned, t)])) := perm_shuffle X L E (assigned, t)
    refine (hstep1.trans hstep2).trans ?_
    exact List.Perm.append_right _ hfp1.symm

/-- Direct-assignment branch of one allocation step: marking the parent
used moves its block from the unused fragments to the assigned blocks,
leaving the combined partition unchanged. -/
theorem allocStep_direct_aux (req : Requirement) (pool pool1 : List Frag)
    (result : AllocResult) (t i : Nat) (parent : Frag)
    (L : List (Nat × Nat)) (R : Set Nat)
    (hwf : ∀ f ∈ pool, wfFrag f)
    (hpart : partitionOf (fragPairs pool ++ L) R)
    (hidx : pool[i]? = some parent)
    (hunused : parent.used = false)
    (heq : parent.cidr = t)
    (hpool1 : sortCmp reorderCmp (pool.set i { parent with used := true }) =
      pool1)
    (hresult : buildResult parent.addr t req = result) :
    (∀ f ∈ pool1, wfFrag f) ∧
      partitionOf (fragPairs pool1 ++ (L ++ [(result.addr, result.cidr)])) R := by
  subst hpool1
  subst hresult
  have hparent_mem : parent ∈ pool := List.getElem?_mem hidx
  have hpwf := hwf parent hparent_mem
  have hset_perm : (pool.set i { parent with used := true }).Perm
      ({ parent with used := true } :: pool.eraseIdx i) :=
    perm_cons_eraseIdx_set pool i parent { parent with used := true } hidx
  have hpool_perm : pool.Perm (parent :: pool.eraseIdx i) :=
    perm_cons_eraseIdx pool i parent hidx
  have hres_addr : (buildResult parent.addr t req).addr = parent.addr := rfl
  have hres_cidr : (buildResult parent.addr t req).cidr = t := rfl
  rw [hres_addr, hres_cidr]
  constructor
  · intro f hf
    have hf' := (sortCmp_perm reorderCmp _).mem_iff.mp hf
    rcases List.mem_cons.mp (hset_perm.mem_iff.mp hf') with hfp | hfe
    · rw [hfp]
      exact hpwf
    · exact hwf f ((List.eraseIdx_sublist pool i).subset hfe)
  · set X := fragPairs (pool.eraseIdx i) with hX
    have hfp_pool : (fragPairs pool).Perm ((parent.addr, parent.cidr) :: X) := by
      have hp := fragPairs_perm _ _ hpool_perm
      rwa [fragPairs_cons_unused parent _ hunused] at hp
    have hsrc : partitionOf ((parent.addr, parent.cidr) :: (X ++ L)) R := by
      refine partitionOf_perm _ _ _ ?_ hpart
      exact hfp_pool.append_right L
    refine partitionOf_perm _ _ _ ?_ hsrc
    have hfp1 : (fragPairs (sortCmp reorderCmp
        (pool.set i { parent with used := true }))).Perm X := by
      refine ((fragPairs_perm _ _ (sortCmp_perm reorderCmp _)).trans ?_)
      refine (fragPairs_perm _ _ hset_perm).trans ?_
      rw [fragPairs_cons_used _ _ rfl]
    rw [← heq]
    refine (perm_rotate X L (parent.addr, parent.cidr)).trans ?_
    exact List.Perm.append_right _ hfp1.symm

/-- One allocation step preserves wellformedness of the pool and the
partition of the region by unused fragments, previously assigned blocks,
and the newly assigned block. -/
theorem allocStep_partition (strategy : Strategy) (req : Requirement)
    (pool pool1 : List Frag) (result : AllocResult)
    (L : List (Nat × Nat)) (R : Set Nat)
    (hwf : ∀ f ∈ pool, wfFrag f)
    (hpart : partitionOf (fragPairs pool ++ L) R)
    (hstep : allocStep strategy req pool = .ok (pool1, result)) :
    (∀ f ∈ pool1, wfFrag f) ∧
      partitionOf (fragPairs pool1 ++ (L ++ [(result.addr, result.cidr)])) R := by
  rcases hfind : findSuitableCIDR req.hosts with _ | t
  · simp only [allocStep, hfind] at hstep
    exact Except.noConfusion hstep
  · obtain ⟨ht1, ht30⟩ := findSuitableCIDR_bounds req.hosts t hfind
    rcases hbf : bestFit pool t with _ | ⟨i, parent⟩
    · simp only [allocStep, hfind, hbf] at hstep
      exact Except.noConfusion hstep
    · obtain ⟨hloc, -, -⟩ := bestFitGo_some t pool 0 none i parent hbf
      rcases hloc with hl | ⟨-, hidx, hfits⟩
      · exact absurd hl (by simp)
      rw [Nat.sub_zero] at hidx
      have hunused : parent.used = false := hfits.1
      have hpc_le : parent.cidr ≤ t := hfits.2.2
      have hlenpos : 0 <
          (generateSubnetDivision parent.addr parent.cidr t).length := by
        unfold generateSubnetDivision
        rw [List.length_map, List.length_range]
        positivity
      by_cases hsub : parent.cidr < t
      · cases strategy with
        | first =>
          simp only [allocStep, hfind, hbf] at hstep
          rw [if_pos hsub] at hstep
          injection hstep with h
          injection h with h1 h2
          exact allocStep_sub_aux req pool pool1 result t i 0 parent L R
            hwf hpart hidx hunused ht1 ht30 hsub hlenpos h1 h2
        | last =>
          simp only [allocStep, hfind, hbf] at hstep
          rw [if_pos hsub] at hstep
          injection hstep with h
          injection h with h1 h2
          exact allocStep_sub_aux req pool pool1 result t i
            ((generateSubnetDivision parent.addr parent.cidr t).length - 1)
            parent L R hwf hpart hidx hunused ht1 ht30 hsub (by omega) h1 h2
      · simp only [allocStep, hfind, hbf] at hstep
        rw [if_neg hsub] at hstep
        injection hstep with h
        injection h with h1 h2
        exact allocStep_direct_aux req pool pool1 result t i parent L R
          hwf hpart hidx hunused (by omega) h1 h2

theorem allocLoop_partition (strategy : Strategy) (reqs : List Requirement) :
    ∀ (pool : List Frag) (results resOut : List AllocResult)
      (poolOut : List Frag) (R : Set Nat),
      (∀ f ∈ pool, wfFrag f) →
      partitionOf (fragPairs pool ++ resultPairs results) R →
      allocLoop strategy reqs pool results = .ok (resOut, poolOut) →
      (∀ f ∈ poolOut, wfFrag f) ∧
        partitionOf (fragPairs poolOut ++ resultPairs resOut) R := by
  induction reqs with
  | nil =>
    intro pool results resOut poolOut R hwf hpart hloop
    simp only [allocLoop] at hloop
    injection hloop with h
    injection h with h1 h2
    subst h1
    subst h2
    exact ⟨hwf, hpart⟩
  | cons req rest ih =>
    intro pool results resOut poolOut R hwf hpart hloop
    rcases hstep0 : allocStep strategy req pool with e | pr
    · simp only [allocLoop, hstep0] at hloop
      exact Except.noConfusion hloop
    · obtain ⟨pool1, result⟩ := pr
      simp only [allocLoop, hstep0] at hloop
      obtain ⟨hwf1, hpart1⟩ := allocStep_partition strategy req pool pool1
        result (resultPairs results) R hwf hpart hstep0
      refine ih pool1 (results ++ [result]) resOut poolOut R hwf1 ?_ hloop
      have hrp : resultPairs (results ++ [result]) =
          resultPairs results ++ [(result.addr, result.cidr)] := by
        simp [resultPairs]
      rw [hrp]
      exact hpart1

/-- C1: after every successful allocation run the assigned blocks all lie
inside the base network and are pairwise disjoint, and together with the
fragments left unused in the pool they exactly partition the address range
of the base network; moreover every single allocation step preserves this
partition invariant (unused fragment blocks plus consumed blocks equal the
base range, disjointly). -/
theorem performVLSMAllocation_partition :
    (∀ (baseAddr baseCidr : Nat), baseAddr < 2 ^ 32 → 1 ≤ baseCidr →
      baseCidr ≤ 30 →
      ∀ (strategy : Strategy) (reqs : List Requirement)
        (results : List AllocResult) (pool : List Frag),
      performVLSMAllocation baseAddr baseCidr reqs strategy =
        .ok (results, pool) →
      (∀ r ∈ results, rangeOf (r.addr, r.cidr) ⊆ rangeOf (baseAddr, baseCidr)) ∧
      (resultPairs results).Pairwise
        (fun p q => Disjoint (rangeOf p) (rangeOf q)) ∧
      partitionOf (fragPairs pool ++ resultPairs results)
        (rangeOf (baseAddr, baseCidr))) ∧
    (∀ (strategy : Strategy) (req : Requirement) (pool pool1 : List Frag)
      (result : AllocResult) (L : List (Nat × Nat)) (R : Set Nat),
      (∀ f ∈ pool, wfFrag f) → partitionOf (fragPairs pool ++ L) R →
      allocStep strategy req pool = .ok (pool1, result) →
      (∀ f ∈ pool1, wfFrag f) ∧
        partitionOf (fragPairs pool1 ++ (L ++ [(result.addr, result.cidr)]))
          R) := by
  constructor
  · intro baseAddr baseCidr ha h1 h30 strategy reqs results pool hrun
    have hwf0 : ∀ f ∈ [({ addr := baseAddr, cidr := baseCidr, used := false } :
        Frag)], wfFrag f := by
      intro f hf
      rw [List.mem_singleton] at hf
      rw [hf]
      exact ⟨ha, h1, h30⟩
    have hpart0 : partitionOf
        (fragPairs [{ addr := baseAddr, cidr := baseCidr, used := false }] ++
          resultPairs []) (rangeOf (baseAddr, baseCidr)) := by
      have hfp : fragPairs
          [{ addr := baseAddr, cidr := baseCidr, used := false }] =
          [(baseAddr, baseCidr)] := rfl
      have hrp : resultPairs ([] : List AllocResult) = [] := rfl
      rw [hfp, hrp, List.append_nil]
      constructor
      · exact List.pairwise_singleton _ _
      · rw [unionOf_cons]
        have : unionOf [] = ∅ := by
          ext x
          rw [mem_unionOf]
          simp
        rw [this, Set.union_empty]
    obtain ⟨hwfend, hpartend⟩ := allocLoop_partition strategy reqs _ [] results
      pool (rangeOf (baseAddr, baseCidr)) hwf0 hpart0 hrun
    refine ⟨?_, ?_, hpartend⟩
    · intro r hr
      refine rangeOf_subset_of_mem _ _ hpartend (r.addr, r.cidr) ?_
      refine List.mem_append.mpr (Or.inr ?_)
      exact List.mem_map.mpr ⟨r, hr, rfl⟩
    · exact hpartend.1.sublist (List.sublist_append_right _ _)
  · exact allocStep_partition

/-- Closed instance of the partition law: allocating one 100-host subnet in
192.168.1.0/24 with strategy first leaves the fragment 192.168.1.128/25
unused, and that fragment together with the assigned block 192.168.1.0/25
partitions the base /24 range. -/
theorem performVLSMAllocation_partition_witness :
    partitionOf
      (fragPairs [{ addr := 3232235904, cidr := 25, used := false }] ++
        resultPairs
          [{ addr := 3232235776, cidr := 25, broadcast := 3232235903,
             firstIP := 3232235777, lastIP := 3232235902, usableHosts := 126,
             requiredHosts := 100, originalIndex := 0, networkNumber := 1 }])
      (rangeOf (3232235776, 24)) := by
  have h := performVLSMAllocation_partition.1 3232235776 24 (by norm_num)
    (by norm_num) (by norm_num) Strategy.first
    [{ hosts := 100, originalIndex := 0, networkNumber := 1 }]
    [{ addr := 3232235776, cidr := 25, broadcast := 3232235903,
       firstIP := 3232235777, lastIP := 3232235902, usableHosts := 126,
       requiredHosts := 100, originalIndex := 0, networkNumber := 1 }]
    [{ addr := 3232235904, cidr := 25, used := false }]
    rfl
  exact h.2.2

/-! ### C5: atomic failure -/

theorem allocLoop_append (strategy : Strategy) (l1 l2 : List Requirement) :
    ∀ (pool : List Frag) (acc : List AllocResult),
      allocLoop strategy (l1 ++ l2) pool acc =
        match allocLoop strategy l1 pool acc with
        | .error e => .error e
        | .ok (accMid, poolMid) => allocLoop strategy l2 poolMid accMid := by
  induction l1 with
  | nil =>
    intro pool acc
    simp [allocLoop]
  | cons req rest ih =>
    intro pool acc
    rcases hstep : allocStep strategy req pool with e | pr
    · simp only [List.cons_append, allocLoop, hstep]
    · obtain ⟨pool1, result⟩ := pr
      simp only [List.cons_append, allocLoop, hstep]
      exact ih pool1 (acc ++ [result])

/-- C5: whenever some step of the loop finds no fragment able to host the
current requirement, the entire call fails with InsufficientSpace: the loop
result is the error alone, no partial results escape (the ok payload exists
only on full success), and calculateVLSM surfaces exactly that error.  The
statement covers a failure at an arbitrary position: any prefix of the
requirement list that has run successfully is discarded. -/
theorem allocation_failure_atomic :
    (∀ (strategy : Strategy) (pre post : List Requirement)
      (req : Requirement) (pool poolMid : List Frag)
      (acc accMid : List AllocResult) (t : Nat),
      allocLoop strategy pre pool acc = .ok (accMid, poolMid) →
      findSuitableCIDR req.hosts = some t →
      bestFit poolMid t = none →
      allocLoop strategy (pre ++ req :: post) pool acc =
        .error .insufficientSpace) ∧
    (∀ (baseAddr baseCidr : Nat) (hostRequirements : List (Option Int))
      (strategy : Strategy) (e : VlsmError),
      1 ≤ baseCidr → baseCidr ≤ 30 →
      buildValidRequirements hostRequirements ≠ [] →
      performVLSMAllocation baseAddr baseCidr
        (sortCmp reqCmp (buildValidRequirements hostRequirements)) strategy =
        .error e →
      calculateVLSM baseAddr baseCidr hostRequirements strategy = .error e) := by
  constructor
  · intro strategy pre post req pool poolMid acc accMid t hpre hfind hbf
    rw [allocLoop_append, hpre]
    have hstep : allocStep strategy req poolMid = .error .insufficientSpace := by
      simp only [allocStep, hfind, hbf]
    simp only [allocLoop, hstep]
  · intro baseAddr baseCidr hostRequirements strategy e h1 h30 hne hperform
    simp only [calculateVLSM]
    rw [if_neg (by omega)]
    rw [if_neg (by simpa [List.isEmpty_iff] using hne)]
    rw [hperform]

/-- Closed instance of atomic failure, the Example C of the specification:
base 192.168.1.0/30 with requirement 100 fails as a whole with
InsufficientSpace at both the loop level and the calculateVLSM level. -/
theorem allocation_failure_atomic_witness :
    allocLoop Strategy.first
        [{ hosts := 100, originalIndex := 0, networkNumber := 1 }]
        [{ addr := 3232235776, cidr := 30, used := false }] [] =
      .error .insufficientSpace ∧
    calculateVLSM 3232235776 30 [some 100] Strategy.first =
      .error .insufficientSpace := by
  constructor
  · have h := allocation_failure_atomic.1 Strategy.first []
      [] { hosts := 100, originalIndex := 0, networkNumber := 1 }
      [{ addr := 3232235776, cidr := 30, used := false }]
      [{ addr := 3232235776, cidr := 30, used := false }] [] [] 25
      rfl rfl rfl
    simpa using h
  · exact allocation_failure_atomic.2 3232235776 30 [some 100] Strategy.first
      .insufficientSpace (by norm_num) (by norm_num) (by decide) rfl

/-! ### C4: order of the returned results -/

theorem allocStep_result_fields (strategy : Strategy) (req : Requirement)
    (pool pool1 : List Frag) (result : AllocResult)
    (hstep : allocStep strategy req pool = .ok (pool1, result)) :
    result.requiredHosts = req.hosts ∧
      result.originalIndex = req.originalIndex := by
  rcases hfind : findSuitableCIDR req.hosts with _ | t
  · simp only [allocStep, hfind] at hstep
    exact Except.noConfusion hstep
  · rcases hbf : bestFit pool t with _ | ⟨i, parent⟩
    · simp only [allocStep, hfind, hbf] at hstep
      exact Except.noConfusion hstep
    · simp only [allocStep, hfind, hbf] at hstep
      by_cases hsub : parent.cidr < t
      · rw [if_pos hsub] at hstep
        injection hstep with h
        injection h with h1 h2
        rw [← h2]
        exact ⟨rfl, rfl⟩
      · rw [if_neg hsub] at hstep
        injection hstep with h
        injection h with h1 h2
        rw [← h2]
        exact ⟨rfl, rfl⟩

theorem allocLoop_results_shape (strategy : Strategy)
    (reqs : List Requirement) :
    ∀ (pool poolOut : List Frag) (acc resOut : List AllocResult),
      allocLoop strategy reqs pool acc = .ok (resOut, poolOut) →
      ∃ news, resOut = acc ++ news ∧
        news.map (fun r => (r.requiredHosts, r.originalIndex)) =
          reqs.map (fun q => (q.hosts, q.originalIndex)) := by
  induction reqs with
  | nil =>
    intro pool poolOut acc resOut hloop
    simp only [allocLoop] at hloop
    injection hloop with h
    injection h with h1 h2
    subst h1
    exact ⟨[], by simp⟩
  | cons req rest ih =>
    intro pool poolOut acc resOut hloop
    rcases hstep : allocStep strategy req pool with e | pr
    · simp only [allocLoop, hstep] at hloop
      exact Except.noConfusion hloop
    · obtain ⟨pool1, result⟩ := pr
      simp only [allocLoop, hstep] at hloop
      obtain ⟨news, hres, hmap⟩ := ih pool1 poolOut (acc ++ [result]) resOut
        hloop
      obtain ⟨hrh, hoi⟩ := allocStep_result_fields strategy req pool pool1
        result hstep
      refine ⟨result :: news, by simpa using hres, ?_⟩
      simp only [List.map_cons, hmap, hrh, hoi]

theorem buildValidFrom_idx (l : List (Option Int)) :
    ∀ i, (∀ q ∈ buildValidFrom i l, i ≤ q.originalIndex) ∧
      (buildValidFrom i l).Pairwise
        (fun a b => a.originalIndex < b.originalIndex) := by
  induction l with
  | nil => intro i; simp [buildValidFrom]
  | cons r rest ih =>
    intro i
    obtain ⟨hbound, hpw⟩ := ih (i + 1)
    rcases r with _ | v
    · have hred : buildValidFrom i (none :: rest) =
          buildValidFrom (i + 1) rest := by
        simp [buildValidFrom]
      rw [hred]
      constructor
      · intro q hq
        exact le_trans (Nat.le_succ i) (hbound q hq)
      · exact hpw
    · by_cases hv : v > 0
      · have hred : buildValidFrom i (some v :: rest) =
            { hosts := v, originalIndex := i, networkNumber := i + 1 } ::
              buildValidFrom (i + 1) rest := by
          simp [buildValidFrom, hv]
        rw [hred]
        constructor
        · intro q hq
          rcases List.mem_cons.mp hq with h | h
          · rw [h]
          · exact le_trans (Nat.le_succ i) (hbound q h)
        · rw [List.pairwise_cons]
          refine ⟨?_, hpw⟩
          intro b hb
          exact lt_of_lt_of_le (Nat.lt_succ_self i) (hbound b hb)
      · have hred : buildValidFrom i (some v :: rest) =
            buildValidFrom (i + 1) rest := by
          simp [buildValidFrom, hv]
        rw [hred]
        constructor
        · intro q hq
          exact le_trans (Nat.le_succ i) (hbound q hq)
        · exact hpw

/-- C4 amended: the results of a successful calculateVLSM call are sorted
by ascending prefix length, and results with equal prefix length appear in
processing order, that is by descending required host count and, among
equal host counts, by ascending original requirement index. -/
theorem calculateVLSM_sorted (baseAddr baseCidr : Nat)
    (hostRequirements : List (Option Int)) (strategy : Strategy)
    (rs : List AllocResult)
    (hrun : calculateVLSM baseAddr baseCidr hostRequirements strategy =
      .ok rs) :
    rs.Pairwise (fun a b =>
      a.cidr < b.cidr ∨ (a.cidr = b.cidr ∧
        (b.requiredHosts < a.requiredHosts ∨
          (a.requiredHosts = b.requiredHosts ∧
            a.originalIndex < b.originalIndex)))) := by
  simp only [calculateVLSM] at hrun
  split at hrun
  · exact Except.noConfusion hrun
  · split at hrun
    · exact Except.noConfusion hrun
    · rcases hperf : performVLSMAllocation baseAddr baseCidr
          (sortCmp reqCmp (buildValidRequirements hostRequirements))
          strategy with e | pr
      · rw [hperf] at hrun
        exact Except.noConfusion hrun
      · obtain ⟨results, poolX⟩ := pr
        rw [hperf] at hrun
        have hrun2 : (Except.ok (sortCmp resCmp results) :
            Except VlsmError (List AllocResult)) = .ok rs := hrun
        injection hrun2 with hrs
        subst hrs
        -- the sorted requirement list is pairwise ordered by descending
        -- hosts, ties by ascending original index
        have hvalid := (buildValidFrom_idx hostRequirements 0).2
        have hsortedreq := sortCmp_pairwise reqCmp
          (fun a b => a.originalIndex < b.originalIndex)
          (by intro a b; unfold reqCmp; omega)
          (by intro a b c; unfold reqCmp; omega)
          (buildValidRequirements hostRequirements) hvalid
        have hreqP : (sortCmp reqCmp
            (buildValidRequirements hostRequirements)).Pairwise
            (fun a b => b.hosts < a.hosts ∨
              (a.hosts = b.hosts ∧ a.originalIndex < b.originalIndex)) := by
          refine hsortedreq.imp ?_
          intro a b hab
          rcases hab with h | ⟨h, h2⟩
          · unfold reqCmp at h
            omega
          · unfold reqCmp at h
            exact Or.inr ⟨by omega, h2⟩
        -- transfer to the produced results, which carry the same host and
        -- index fields in the same order
        have hloop : allocLoop strategy
            (sortCmp reqCmp (buildValidRequirements hostRequirements))
            [{ addr := baseAddr, cidr := baseCidr, used := false }] [] =
            .ok (results, poolX) := hperf
        obtain ⟨news, hres, hmap⟩ := allocLoop_results_shape strategy
          (sortCmp reqCmp (buildValidRequirements hostRequirements))
          [{ addr := baseAddr, cidr := baseCidr, used := false }] poolX []
          results hloop
        rw [List.nil_append] at hres
        subst hres
        have hresP : results.Pairwise
            (fun a b => b.requiredHosts < a.requiredHosts ∨
              (a.requiredHosts = b.requiredHosts ∧
                a.originalIndex < b.originalIndex)) := by
          have hpairs : (results.map
              (fun r => (r.requiredHosts, r.originalIndex))).Pairwise
              (fun p q => q.1 < p.1 ∨ (p.1 = q.1 ∧ p.2 < q.2)) := by
            rw [hmap, List.pairwise_map]
            exact hreqP
          rw [List.pairwise_map] at hpairs
          exact hpairs
        -- the final stable sort by ascending cidr keeps processing order
        -- among equal prefixes
        have hout := sortCmp_pairwise resCmp
          (fun a b => b.requiredHosts < a.requiredHosts ∨
            (a.requiredHosts = b.requiredHosts ∧
              a.originalIndex < b.originalIndex))
          (by intro a b; unfold resCmp; omega)
          (by intro a b c; unfold resCmp; omega)
          results hresP
        refine hout.imp ?_
        intro a b hab
        rcases hab with h | ⟨h, h2⟩
        · unfold resCmp at h
          omega
        · unfold resCmp at h
          exact Or.inr ⟨by omega, h2⟩

/-- Closed instance of the amended ordering on the run with requirements
[50, 30] in 192.168.1.0/24. -/
theorem calculateVLSM_sorted_witness :
    ([{ addr := 3232235776, cidr := 26, broadcast := 3232235839,
        firstIP := 3232235777, lastIP := 3232235838, usableHosts := 62,
        requiredHosts := 50, originalIndex := 0, networkNumber := 1 },
      { addr := 3232235840, cidr := 27, broadcast := 3232235871,
        firstIP := 3232235841, lastIP := 3232235870, usableHosts := 30,
        requiredHosts := 30, originalIndex := 1, networkNumber := 2 }] :
      List AllocResult).Pairwise (fun a b =>
      a.cidr < b.cidr ∨ (a.cidr = b.cidr ∧
        (b.requiredHosts < a.requiredHosts ∨
          (a.requiredHosts = b.requiredHosts ∧
            a.originalIndex < b.originalIndex)))) :=
  calculateVLSM_sorted 3232235776 24 [some 50, some 30] Strategy.first _ rfl

/-- C4 counterexample: with requirements [40, 50] in 192.168.1.0/24 both
subnets get prefix 26, yet the returned order has original indices 1 then
0, so equal-prefix results are not ordered by ascending original
requirement index. -/
theorem calculateVLSM_sort_counterexample :
    calculateVLSM 3232235776 24 [some 40, some 50] Strategy.first =
      .ok [{ addr := 3232235776, cidr := 26, broadcast := 3232235839,
             firstIP := 3232235777, lastIP := 3232235838, usableHosts := 62,
             requiredHosts := 50, originalIndex := 1, networkNumber := 2 },
           { addr := 3232235840, cidr := 26, broadcast := 3232235903,
             firstIP := 3232235841, lastIP := 3232235902, usableHosts := 62,
             requiredHosts := 40, originalIndex := 0, networkNumber := 1 }] ∧
    ¬ ([{ addr := 3232235776, cidr := 26, broadcast := 3232235839,
          firstIP := 3232235777, lastIP := 3232235838, usableHosts := 62,
          requiredHosts := 50, originalIndex := 1, networkNumber := 2 },
        { addr := 3232235840, cidr := 26, broadcast := 3232235903,
          firstIP := 3232235841, lastIP := 3232235902, usableHosts := 62,
          requiredHosts := 40, originalIndex := 0, networkNumber := 1 }] :
        List AllocResult).Pairwise (fun a b =>
        a.cidr < b.cidr ∨ (a.cidr = b.cidr ∧
          a.originalIndex < b.originalIndex)) :=
  ⟨rfl, by decide⟩

/-! ### C6: requirement filtering -/

theorem allocStep_error_kind (strategy : Strategy) (req : Requirement)
    (pool : List Frag) (e : VlsmError)
    (hstep : allocStep strategy req pool = .error e) :
    e = .insufficientSpace ∨ e = .unsatisfiableHostCount := by
  rcases hfind : findSuitableCIDR req.hosts with _ | t
  · simp only [allocStep, hfind] at hstep
    injection hstep with h
    exact Or.inr h.symm
  · rcases hbf : bestFit pool t with _ | ⟨i, parent⟩
    · simp only [allocStep, hfind, hbf] at hstep
      injection hstep with h
      exact Or.inl h.symm
    · simp only [allocStep, hfind, hbf] at hstep
      by_cases hsub : parent.cidr < t
      · rw [if_pos hsub] at hstep
        exact Except.noConfusion hstep
      · rw [if_neg hsub] at hstep
        exact Except.noConfusion hstep

theorem allocLoop_error_kind (strategy : Strategy) (reqs : List Requirement) :
    ∀ (pool : List Frag) (acc : List AllocResult) (e : VlsmError),
      allocLoop strategy reqs pool acc = .error e →
      e = .insufficientSpace ∨ e = .unsatisfiableHostCount := by
  induction reqs with
  | nil =>
    intro pool acc e hloop
    simp only [allocLoop] at hloop
    exact Except.noConfusion hloop
  | cons req rest ih =>
    intro pool acc e hloop
    rcases hstep : allocStep strategy req pool with e' | pr
    · simp only [allocLoop, hstep] at hloop
      injection hloop with h
      rw [← h]
      exact allocStep_error_kind strategy req pool e' hstep
    · obtain ⟨pool1, result⟩ := pr
      simp only [allocLoop, hstep] at hloop
      exact ih pool1 (acc ++ [result]) e hloop

theorem buildValidFrom_eq_nil_iff (l : List (Option Int)) :
    ∀ i, (buildValidFrom i l = [] ↔ ∀ r ∈ l, ∀ v, r = some v → v ≤ 0) := by
  induction l with
  | nil => intro i; simp [buildValidFrom]
  | cons r rest ih =>
    intro i
    rcases r with _ | v
    · have hred : buildValidFrom i (none :: rest) =
          buildValidFrom (i + 1) rest := by simp [buildValidFrom]
      rw [hred, ih]
      constructor
      · intro hall r hr v hv
        rcases List.mem_cons.mp hr with h | h
        · rw [h] at hv
          exact Option.noConfusion hv
        · exact hall r h v hv
      · intro hall r hr v hv
        exact hall r (by simp [hr]) v hv
    · by_cases hv : v > 0
      · have hred : buildValidFrom i (some v :: rest) =
            { hosts := v, originalIndex := i, networkNumber := i + 1 } ::
              buildValidFrom (i + 1) rest := by simp [buildValidFrom, hv]
        rw [hred]
        constructor
        · intro h
          exact List.noConfusion h
        · intro hall
          have := hall (some v) (by simp) v rfl
          omega
      · have hred : buildValidFrom i (some v :: rest) =
            buildValidFrom (i + 1) rest := by simp [buildValidFrom, hv]
        rw [hred, ih]
        constructor
        · intro hall r hr w hw
          rcases List.mem_cons.mp hr with h | h
          · rw [h] at hw
            injection hw with hw
            omega
          · exact hall r h w hw
        · intro hall r hr w hw
          exact hall r (by simp [hr]) w hw

theorem buildValidFrom_map (l : List (Option Int)) :
    ∀ i, (buildValidFrom i l).map
        (fun q => (q.hosts, q.originalIndex, q.networkNumber)) =
      (List.enumFrom i l).filterMap (fun p =>
        match p.2 with
        | some v => if v > 0 then some (v, p.1, p.1 + 1) else none
        | none => none) := by
  induction l with
  | nil => intro i; simp [buildValidFrom]
  | cons r rest ih =>
    intro i
    rcases r with _ | v
    · have hred : buildValidFrom i (none :: rest) =
          buildValidFrom (i + 1) rest := by simp [buildValidFrom]
      rw [hred]
      simp only [List.enumFrom, List.filterMap_cons]
      exact ih (i + 1)
    · by_cases hv : v > 0
      · have hred : buildValidFrom i (some v :: rest) =
            { hosts := v, originalIndex := i, networkNumber := i + 1 } ::
              buildValidFrom (i + 1) rest := by simp [buildValidFrom, hv]
        rw [hred]
        simp only [List.map_cons, List.enumFrom, List.filterMap_cons, hv,
          if_pos]
        rw [ih (i + 1)]
      · have hred : buildValidFrom i (some v :: rest) =
            buildValidFrom (i + 1) rest := by simp [buildValidFrom, hv]
        rw [hred]
        simp only [List.enumFrom, List.filterMap_cons, hv, if_neg]
        exact ih (i + 1)

/-- C6: calculateVLSM keeps exactly the positive entries of the host
requirement list, pairing each with its original position (and label
position + 1); with a valid base network it fails with
NoValidRequirements precisely when no entry is positive; and for the
requirements [0, -5, 20] only the 20-host requirement is allocated, under
its original index 2. -/
theorem calculateVLSM_filter_spec :
    (∀ l : List (Option Int),
      (buildValidRequirements l).map
          (fun q => (q.hosts, q.originalIndex, q.networkNumber)) =
        (List.enumFrom 0 l).filterMap (fun p =>
          match p.2 with
          | some v => if v > 0 then some (v, p.1, p.1 + 1) else none
          | none => none)) ∧
    (∀ (baseAddr baseCidr : Nat) (l : List (Option Int))
      (strategy : Strategy), 1 ≤ baseCidr → baseCidr ≤ 30 →
      (calculateVLSM baseAddr baseCidr l strategy =
          .error .noValidRequirements ↔
        ∀ r ∈ l, ∀ v, r = some v → v ≤ 0)) ∧
    (calculateVLSM 3232235776 24 [some 0, some (-5), some 20]
        Strategy.first).map
      (fun rs => rs.map fun r => (r.requiredHosts, r.originalIndex)) =
      .ok [(20, 2)] := by
  refine ⟨fun l => buildValidFrom_map l 0, ?_, rfl⟩
  intro baseAddr baseCidr l strategy h1 h30
  constructor
  · intro hrun
    simp only [calculateVLSM] at hrun
    rw [if_neg (by omega)] at hrun
    by_cases hech : (buildValidRequirements l).isEmpty
    · rw [List.isEmpty_iff] at hech
      exact (buildValidFrom_eq_nil_iff l 0).mp hech
    · exfalso
      rw [if_neg hech] at hrun
      rcases hperf : performVLSMAllocation baseAddr baseCidr
          (sortCmp reqCmp (buildValidRequirements l)) strategy with e | pr
      · rw [hperf] at hrun
        have hrun2 : (Except.error e :
            Except VlsmError (List AllocResult)) = .error .noValidRequirements :=
          hrun
        injection hrun2 with he
        subst he
        rcases allocLoop_error_kind strategy _ _ _ _ hperf with h | h <;>
          exact VlsmError.noConfusion h
      · obtain ⟨results, poolX⟩ := pr
        rw [hperf] at hrun
        exact Except.noConfusion hrun
  · intro hall
    simp only [calculateVLSM]
    rw [if_neg (by omega)]
    have hnil : buildValidRequirements l = [] :=
      (buildValidFrom_eq_nil_iff l 0).mpr hall
    rw [if_pos (by simp [hnil, List.isEmpty_iff])]

/-- Closed instance of the NoValidRequirements law at requirements
consisting of an absent entry, a zero and a negative. -/
theorem calculateVLSM_filter_spec_witness :
    calculateVLSM 3232235776 24 [none, some 0, some (-7)] Strategy.first =
      .error .noValidRequirements := by
  refine (calculateVLSM_filter_spec.2.1 3232235776 24
    [none, some 0, some (-7)] Strategy.first (by norm_num) (by norm_num)).mpr
    ?_
  intro r hr v hv
  rcases List.mem_cons.mp hr with h | hr'
  · rw [h] at hv
    exact Option.noConfusion hv
  rcases List.mem_cons.mp hr' with h | hr''
  · rw [h] at hv
    injection hv with hv
    omega
  rcases List.mem_cons.mp hr'' with h | hr3
  · rw [h] at hv
    injection hv with hv
    omega
  · exact absurd hr3 (List.not_mem_nil r)

/-! ### The string layer: split, parseInt, parseIP, ipToInt, validation

Dotted strings are modelled as lists of characters.  String.prototype.split
with a one-character separator is splitOnChar; the JavaScript parseInt
builtin (radix argument absent, so decimal with the 0x hex prefix) is
jsParseInt.  ipToInt is the composition the source performs on address
strings; validateBaseNetwork is the base-network check of calculateVLSM. -/

/-- String.prototype.split with a single-character separator. -/
def splitOnChar (c : Char) : List Char → List (List Char)
  | [] => [[]]
  | x :: xs =>
    if x = c then [] :: splitOnChar c xs
    else
      match splitOnChar c xs with
      | [] => [[x]]
      | h :: tl => (x :: h) :: tl

/-- Accumulating decimal scan of parseInt: consume digits, stop at the
first non-digit, ignore the rest. -/
def parseDigitsFrom (acc : Nat) : List Char → Nat
  | [] => acc
  | ch :: rest =>
    if ch.isDigit then parseDigitsFrom (10 * acc + (ch.toNat - 48)) rest
    else acc

/-- Decimal digit run of parseInt: NaN (none) when the first character is
not a digit. -/
def parseDecDigits : List Char → Option Nat
  | [] => none
  | ch :: rest =>
    if ch.isDigit then some (parseDigitsFrom (ch.toNat - 48) rest) else none

def hexVal (ch : Char) : Option Nat :=
  if ch.isDigit then some (ch.toNat - 48)
  else if 'a' ≤ ch ∧ ch ≤ 'f' then some (ch.toNat - 87)
  else if 'A' ≤ ch ∧ ch ≤ 'F' then some (ch.toNat - 55)
  else none

def parseHexFrom (acc : Nat) : List Char → Nat
  | [] => acc
  | ch :: rest =>
    match hexVal ch with
    | some d => parseHexFrom (16 * acc + d) rest
    | none => acc

def parseHexDigits : List Char → Option Nat
  | [] => none
  | ch :: rest =>
    match hexVal ch with
    | some d => some (parseHexFrom d rest)
    | none => none

/-- Digit part of parseInt after sign handling: a 0x or 0X prefix selects
hexadecimal, otherwise decimal. -/
def parseIntBody (l : List Char) : Option Nat :=
  match l with
  | c0 :: c1 :: rest =>
    if c0 = '0' ∧ (c1 = 'x' ∨ c1 = 'X') then parseHexDigits rest
    else parseDecDigits l
  | _ => parseDecDigits l

/-- The JavaScript parseInt builtin with no radix argument: skip leading
whitespace, read an optional sign, then the digit run; NaN (none) when no
digit follows. -/
def jsParseInt (l : List Char) : Option Int :=
  match l.dropWhile Char.isWhitespace with
  | [] => none
  | ch :: rest =>
    if ch = '-' then (parseIntBody rest).map (fun n => -(n : Int))
    else if ch = '+' then (parseIntBody rest).map (fun n => (n : Int))
    else (parseIntBody (ch :: rest)).map (fun n => (n : Int))

/-- Source parseIP: split on dots and parseInt each part; an entry is none
when parseInt returns NaN. -/
def parseIP (l : List Char) : List (Option Int) :=
  (splitOnChar '.' l).map jsParseInt

/-- One shifted term of ipToInt: the JavaScript left shift converts NaN and
undefined operands to 0 and reduces the product into signed 32 bits. -/
def shl32 (o : Option Int) (n : Nat) : Int :=
  match o with
  | none => 0
  | some v => toInt32 (v * 2 ^ n)

/-- Source ipToInt: the three shifted octets are added to the raw fourth
octet; a missing or unparsable fourth octet makes the sum NaN (none), a
missing or unparsable earlier octet contributes 0 through the shift. -/
def ipToInt (l : List Char) : Option Int :=
  let octets := parseIP l
  match octets.getD 3 none with
  | none => none
  | some v3 =>
    some (shl32 (octets.getD 0 none) 24 + shl32 (octets.getD 1 none) 16 +
      shl32 (octets.getD 2 none) 8 + v3)

/-- The base-network validation of calculateVLSM: split on the slash,
require a truthy (nonempty) address part and a prefix that parses to an
integer in [1,30].  True means the validation passes. -/
def validateBaseNetwork (l : List Char) : Bool :=
  let parts := splitOnChar '/' l
  let baseIP := parts.getD 0 []
  let baseCIDRNum : Option Int :=
    match parts[1]? with
    | some p => jsParseInt p
    | none => none
  decide (baseIP ≠ []) &&
    match baseCIDRNum with
    | some n => decide (1 ≤ n ∧ n ≤ 30)
    | none => false

/-- Canonical value of a decimal digit string. -/
def octValue (l : List Char) : Nat :=
  l.foldl (fun a ch => 10 * a + (ch.toNat - 48)) 0

/-- A wellformed octet of a dotted address: nonempty, all decimal digits,
value at most 255. -/
def isOctetStr (l : List Char) : Prop :=
  l ≠ [] ∧ (∀ ch ∈ l, ch.isDigit = true) ∧ octValue l ≤ 255

/-- A wellformed dotted-decimal address: exactly four octet strings joined
by dots. -/
def wellFormedIP (l : List Char) : Prop :=
  ∃ a b c d, l = a ++ '.' :: (b ++ '.' :: (c ++ '.' :: d)) ∧
    isOctetStr a ∧ isOctetStr b ∧ isOctetStr c ∧ isOctetStr d

/-- A wellformed base-network string: a wellformed dotted address, a slash,
and a nonempty digit prefix string. -/
def wellFormedBaseChars (l : List Char) : Prop :=
  ∃ ip cidr, l = ip ++ '/' :: cidr ∧ wellFormedIP ip ∧ cidr ≠ [] ∧
    (∀ ch ∈ cidr, ch.isDigit = true)

/-! ### String-layer lemmas -/

theorem digit_ne_of (ch c : Char) (h : ch.isDigit = true)
    (hc : c.isDigit = false) : ch ≠ c := by
  intro he
  rw [he, hc] at h
  exact Bool.noConfusion h

theorem digit_not_ws (ch : Char) (h : ch.isDigit = true) :
    ch.isWhitespace = false := by
  have h1 := digit_ne_of ch ' ' h (by decide)
  have h2 := digit_ne_of ch '\t' h (by decide)
  have h3 := digit_ne_of ch '\r' h (by decide)
  have h4 := digit_ne_of ch '\n' h (by decide)
  simp [Char.isWhitespace, h1, h2, h3, h4]

theorem not_dot_mem_of_digits (l : List Char)
    (h : ∀ ch ∈ l, ch.isDigit = true) : '.' ∉ l := by
  intro hm
  exact absurd (h '.' hm) (by decide)

theorem not_slash_mem_of_digits (l : List Char)
    (h : ∀ ch ∈ l, ch.isDigit = true) : '/' ∉ l := by
  intro hm
  exact absurd (h '/' hm) (by decide)

theorem splitOnChar_not_mem (c : Char) (l : List Char) (h : c ∉ l) :
    splitOnChar c l = [l] := by
  induction l with
  | nil => rfl
  | cons x xs ih =>
    have hx : x ≠ c := fun he => h (he ▸ List.mem_cons_self x xs)
    have hxs : c ∉ xs := fun hm => h (List.mem_cons_of_mem x hm)
    simp only [splitOnChar, if_neg hx, ih hxs]

theorem splitOnChar_cons (c x : Char) (xs : List Char) :
    splitOnChar c (x :: xs) =
      if x = c then [] :: splitOnChar c xs
      else
        match splitOnChar c xs with
        | [] => [[x]]
        | h :: tl => (x :: h) :: tl := rfl

theorem splitOnChar_append (c : Char) (l1 l2 : List Char) (h : c ∉ l1) :
    splitOnChar c (l1 ++ c :: l2) = l1 :: splitOnChar c l2 := by
  induction l1 with
  | nil => simp [splitOnChar]
  | cons x xs ih =>
    have hx : x ≠ c := fun he => h (he ▸ List.mem_cons_self x xs)
    have hxs : c ∉ xs := fun hm => h (List.mem_cons_of_mem x hm)
    rw [List.cons_append, splitOnChar_cons, if_neg hx, ih hxs]

theorem parseDigitsFrom_all (l : List Char)
    (h : ∀ ch ∈ l, ch.isDigit = true) :
    ∀ acc, parseDigitsFrom acc l =
      l.foldl (fun a ch => 10 * a + (ch.toNat - 48)) acc := by
  induction l with
  | nil => intro acc; rfl
  | cons ch rest ih =>
    intro acc
    have hch : ch.isDigit = true := h ch (by simp)
    simp only [parseDigitsFrom, if_pos hch, List.foldl_cons]
    exact ih (fun x hx => h x (by simp [hx])) _

theorem parseDecDigits_digits (l : List Char) (hne : l ≠ [])
    (h : ∀ ch ∈ l, ch.isDigit = true) :
    parseDecDigits l = some (octValue l) := by
  match l with
  | [] => exact absurd rfl hne
  | ch :: rest =>
    have hch : ch.isDigit = true := h ch (by simp)
    simp only [parseDecDigits, if_pos hch]
    rw [parseDigitsFrom_all rest (fun x hx => h x (by simp [hx]))]
    unfold octValue
    simp

theorem parseIntBody_digits (l : List Char) (hne : l ≠ [])
    (h : ∀ ch ∈ l, ch.isDigit = true) :
    parseIntBody l = some (octValue l) := by
  match l with
  | [] => exact absurd rfl hne
  | [c0] => exact parseDecDigits_digits [c0] (by simp) h
  | c0 :: c1 :: rest =>
    have hc1 : (c1 : Char).isDigit = true := h c1 (by simp)
    have hx : c1 ≠ 'x' := digit_ne_of c1 'x' hc1 (by decide)
    have hX : c1 ≠ 'X' := digit_ne_of c1 'X' hc1 (by decide)
    simp only [parseIntBody]
    rw [if_neg (by tauto)]
    exact parseDecDigits_digits _ (by simp) h

theorem jsParseInt_digits (l : List Char) (hne : l ≠ [])
    (h : ∀ ch ∈ l, ch.isDigit = true) :
    jsParseInt l = some ((octValue l : Nat) : Int) := by
  match l with
  | [] => exact absurd rfl hne
  | ch :: rest =>
    have hch : ch.isDigit = true := h ch (by simp)
    have hws : ch.isWhitespace = false := digit_not_ws ch hch
    have hminus : ch ≠ '-' := digit_ne_of ch '-' hch (by decide)
    have hplus : ch ≠ '+' := digit_ne_of ch '+' hch (by decide)
    simp only [jsParseInt, List.dropWhile_cons, hws, Bool.false_eq_true,
      if_false]
    rw [if_neg hminus, if_neg hplus,
      parseIntBody_digits (ch :: rest) (by simp) h]
    rfl

theorem toInt32_small (v : Int) (h0 : 0 ≤ v) (h : v < 2 ^ 32) :
    toInt32 v = if v < 2 ^ 31 then v else v - 2 ^ 32 := by
  unfold toInt32
  rw [Int.emod_eq_of_lt h0 h]

set_option maxRecDepth 4096 in
/-- Reading a wellformed dotted address through ipToInt yields the signed
32-bit reinterpretation of its unsigned address value. -/
theorem ipToInt_wellformed_eq (a b c d : List Char) (ha : isOctetStr a)
    (hb : isOctetStr b) (hc : isOctetStr c) (hd : isOctetStr d) :
    ipToInt (a ++ '.' :: (b ++ '.' :: (c ++ '.' :: d))) =
      some (sInt32 (octValue a * 2 ^ 24 + octValue b * 2 ^ 16 +
        octValue c * 2 ^ 8 + octValue d)) := by
  have hsplit : splitOnChar '.' (a ++ '.' :: (b ++ '.' :: (c ++ '.' :: d))) =
      [a, b, c, d] := by
    rw [splitOnChar_append '.' a _ (not_dot_mem_of_digits a ha.2.1),
      splitOnChar_append '.' b _ (not_dot_mem_of_digits b hb.2.1),
      splitOnChar_append '.' c _ (not_dot_mem_of_digits c hc.2.1),
      splitOnChar_not_mem '.' d (not_dot_mem_of_digits d hd.2.1)]
  have hpip : parseIP (a ++ '.' :: (b ++ '.' :: (c ++ '.' :: d))) =
      [some ((octValue a : Nat) : Int), some ((octValue b : Nat) : Int),
       some ((octValue c : Nat) : Int), some ((octValue d : Nat) : Int)] := by
    unfold parseIP
    rw [hsplit]
    simp only [List.map_cons, List.map_nil]
    rw [jsParseInt_digits a ha.1 ha.2.1, jsParseInt_digits b hb.1 hb.2.1,
      jsParseInt_digits c hc.1 hc.2.1, jsParseInt_digits d hd.1 hd.2.1]
  have hstep : ipToInt (a ++ '.' :: (b ++ '.' :: (c ++ '.' :: d))) =
      some (shl32 (some ((octValue a : Nat) : Int)) 24 +
        shl32 (some ((octValue b : Nat) : Int)) 16 +
        shl32 (some ((octValue c : Nat) : Int)) 8 +
        ((octValue d : Nat) : Int)) := by
    unfold ipToInt
    rw [hpip]
    rfl
  rw [hstep]
  refine congrArg some ?_
  simp only [shl32]
  have hA' : ((octValue a : Nat) : Int) ≤ 255 := by exact_mod_cast ha.2.2
  have hB' : ((octValue b : Nat) : Int) ≤ 255 := by exact_mod_cast hb.2.2
  have hC' : ((octValue c : Nat) : Int) ≤ 255 := by exact_mod_cast hc.2.2
  have hD' : ((octValue d : Nat) : Int) ≤ 255 := by exact_mod_cast hd.2.2
  have hA0 : (0 : Int) ≤ ((octValue a : Nat) : Int) := Int.ofNat_nonneg _
  have hB0 : (0 : Int) ≤ ((octValue b : Nat) : Int) := Int.ofNat_nonneg _
  have hC0 : (0 : Int) ≤ ((octValue c : Nat) : Int) := Int.ofNat_nonneg _
  have e24 : (2 : Int) ^ 24 = 16777216 := by norm_num
  have e16 : (2 : Int) ^ 16 = 65536 := by norm_num
  have e8 : (2 : Int) ^ 8 = 256 := by norm_num
  have e32 : (2 : Int) ^ 32 = 4294967296 := by norm_num
  have e31 : (2 : Int) ^ 31 = 2147483648 := by norm_num
  rw [toInt32_small _ (by positivity) (by rw [e24, e32]; omega),
    toInt32_small _ (by positivity) (by rw [e16, e32]; omega),
    toInt32_small _ (by positivity) (by rw [e8, e32]; omega)]
  unfold sInt32
  have n24 : (2 : Nat) ^ 24 = 16777216 := by norm_num
  have n16 : (2 : Nat) ^ 16 = 65536 := by norm_num
  have n8 : (2 : Nat) ^ 8 = 256 := by norm_num
  have n31 : (2 : Nat) ^ 31 = 2147483648 := by norm_num
  rw [e24, e16, e8, e31, e32, n24, n16, n8, n31]
  split_ifs <;> push_cast <;> omega

theorem dot_mem_of_wf (l : List Char) (h : wellFormedIP l) : '.' ∈ l := by
  obtain ⟨a, b, c, d, heq, -, -, -, -⟩ := h
  rw [heq]
  exact List.mem_append.mpr (Or.inr (by simp))

theorem mem_wf_ip (l : List Char) (h : wellFormedIP l) :
    ∀ ch ∈ l, ch.isDigit = true ∨ ch = '.' := by
  obtain ⟨a, b, c, d, heq, ha, hb, hc, hd⟩ := h
  intro ch hch
  rw [heq] at hch
  rcases List.mem_append.mp hch with h1 | h1
  · exact Or.inl (ha.2.1 ch h1)
  rcases List.mem_cons.mp h1 with h2 | h2
  · exact Or.inr h2
  rcases List.mem_append.mp h2 with h3 | h3
  · exact Or.inl (hb.2.1 ch h3)
  rcases List.mem_cons.mp h3 with h4 | h4
  · exact Or.inr h4
  rcases List.mem_append.mp h4 with h5 | h5
  · exact Or.inl (hc.2.1 ch h5)
  rcases List.mem_cons.mp h5 with h6 | h6
  · exact Or.inr h6
  · exact Or.inl (hd.2.1 ch h6)

theorem not_slash_mem_of_wf (l : List Char) (h : wellFormedIP l) :
    '/' ∉ l := by
  intro hm
  rcases mem_wf_ip l h '/' hm with hd | hdot
  · exact absurd hd (by decide)
  · exact absurd hdot (by decide)

theorem wf_ip_ne_nil (l : List Char) (h : wellFormedIP l) : l ≠ [] := by
  intro hnil
  have := dot_mem_of_wf l h
  rw [hnil] at this
  exact List.not_mem_nil '.' this

theorem splitOnChar_ne_nil (c : Char) (l : List Char) :
    splitOnChar c l ≠ [] := by
  cases l with
  | nil => simp [splitOnChar]
  | cons x xs =>
    rw [splitOnChar_cons]
    by_cases hx : x = c
    · simp [hx]
    · rw [if_neg hx]
      rcases hsp : splitOnChar c xs with _ | ⟨p, tl⟩
      · simp
      · simp

/-- C7 amended: the base-network validation of calculateVLSM fails exactly
when the part before the first slash is empty or the segment after it does
not parse to an integer in [1,30]; a string without a slash always fails
(the missing prefix parses to NaN), every wellformed dotted-decimal base
with a digit prefix in [1,30] passes, but malformed address parts with a
parseable prefix, such as x/24, are accepted as well; at the calculateVLSM
level the InvalidBaseNetwork error occurs exactly when the parsed prefix
lies outside [1,30]. -/
theorem validateBaseNetwork_spec :
    (∀ l : List Char, '/' ∉ l → validateBaseNetwork l = false) ∧
    (∀ ip rest : List Char, '/' ∉ ip →
      (validateBaseNetwork (ip ++ '/' :: rest) = false ↔
        (ip = [] ∨ ∀ n : Int,
          jsParseInt ((splitOnChar '/' rest).headD []) = some n →
            ¬(1 ≤ n ∧ n ≤ 30)))) ∧
    (∀ (baseAddr baseCidr : Nat) (hostRequirements : List (Option Int))
      (strategy : Strategy),
      (calculateVLSM baseAddr baseCidr hostRequirements strategy =
          .error .invalidBaseNetwork ↔ (baseCidr < 1 ∨ 30 < baseCidr))) ∧
    (∀ ip cidr : List Char, wellFormedIP ip → cidr ≠ [] →
      (∀ ch ∈ cidr, ch.isDigit = true) →
      1 ≤ octValue cidr → octValue cidr ≤ 30 →
      validateBaseNetwork (ip ++ '/' :: cidr) = true) ∧
    validateBaseNetwork ("x/24".data) = true := by
  refine ⟨?_, ?_, ?_, ?_, rfl⟩
  · intro l hl
    unfold validateBaseNetwork
    rw [splitOnChar_not_mem '/' l hl]
    simp
  · intro ip rest hip
    unfold validateBaseNetwork
    rw [splitOnChar_append '/' ip rest hip]
    rcases hsp : splitOnChar '/' rest with _ | ⟨p0, ps⟩
    · exact absurd hsp (splitOnChar_ne_nil '/' rest)
    · simp only [List.getD_cons_zero, List.getElem?_cons_succ,
        List.getElem?_cons_zero, List.headD_cons]
      by_cases hipnil : ip = []
      · simp [hipnil]
      · rw [decide_eq_true (show ip ≠ [] from hipnil)]
        simp only [Bool.true_and]
        rcases hpi : jsParseInt p0 with _ | n
        · constructor
          · intro _
            exact Or.inr (fun n hn => Option.noConfusion hn)
          · intro _
            rfl
        · constructor
          · intro h
            refine Or.inr ?_
            intro m hm
            injection hm with hm
            subst hm
            have h' : decide (1 ≤ n ∧ n ≤ 30) = false := h
            exact decide_eq_false_iff_not.mp h'
          · rintro (h | h)
            · exact absurd h hipnil
            · have h' : decide (1 ≤ n ∧ n ≤ 30) = false :=
                decide_eq_false_iff_not.mpr (h n rfl)
              exact h'
  · intro baseAddr baseCidr hostRequirements strategy
    constructor
    · intro hrun
      by_contra hin
      simp only [calculateVLSM] at hrun
      rw [if_neg hin] at hrun
      by_cases hempty : (buildValidRequirements hostRequirements).isEmpty
      · rw [if_pos hempty] at hrun
        injection hrun with h
        exact VlsmError.noConfusion h
      · rw [if_neg hempty] at hrun
        rcases hperf : performVLSMAllocation baseAddr baseCidr
            (sortCmp reqCmp (buildValidRequirements hostRequirements))
            strategy with e | pr
        · rw [hperf] at hrun
          have hrun2 : (Except.error e :
              Except VlsmError (List AllocResult)) =
              .error .invalidBaseNetwork := hrun
          injection hrun2 with he
          subst he
          rcases allocLoop_error_kind strategy _ _ _ _ hperf with h | h <;>
            exact VlsmError.noConfusion h
        · obtain ⟨results, poolX⟩ := pr
          rw [hperf] at hrun
          exact Except.noConfusion hrun
    · intro hout
      simp only [calculateVLSM]
      rw [if_pos hout]
  · intro ip cidr hwf hne hdig h1 h30
    unfold validateBaseNetwork
    rw [splitOnChar_append '/' ip cidr (not_slash_mem_of_wf ip hwf),
      splitOnChar_not_mem '/' cidr (not_slash_mem_of_digits cidr hdig)]
    simp only [List.getD_cons_zero, List.getElem?_cons_succ,
      List.getElem?_cons_zero]
    rw [jsParseInt_digits cidr hne hdig]
    rw [decide_eq_true (wf_ip_ne_nil ip hwf)]
    show (true && decide (1 ≤ ((octValue cidr : Nat) : Int) ∧
      ((octValue cidr : Nat) : Int) ≤ 30)) = true
    rw [decide_eq_true (show 1 ≤ ((octValue cidr : Nat) : Int) ∧
      ((octValue cidr : Nat) : Int) ≤ 30 by omega)]
    rfl

/-- Closed instances of the amended validation law: a slash-free input and
an empty address part fail, an out-of-range prefix raises
InvalidBaseNetwork, and the wellformed base 10.0.0.0/8 passes. -/
theorem validateBaseNetwork_spec_witness :
    validateBaseNetwork ("1.2.3.4".data) = false ∧
    validateBaseNetwork ("/24".data) = false ∧
    calculateVLSM 3232235776 31 [some 10] Strategy.first =
      .error .invalidBaseNetwork ∧
    validateBaseNetwork ("10.0.0.0/8".data) = true := by
  refine ⟨?_, ?_, ?_, ?_⟩
  · exact validateBaseNetwork_spec.1 ("1.2.3.4".data) (by decide)
  · exact (validateBaseNetwork_spec.2.1 [] ("24".data) (by decide)).mpr
      (Or.inl rfl)
  · exact (validateBaseNetwork_spec.2.2.1 3232235776 31 [some 10]
      Strategy.first).mpr (by norm_num)
  · have h := validateBaseNetwork_spec.2.2.2.1 ("10.0.0.0".data) ['8']
      ⟨['1', '0'], ['0'], ['0'], ['0'], rfl,
        ⟨by decide, by decide, by decide⟩, ⟨by decide, by decide, by decide⟩,
        ⟨by decide, by decide, by decide⟩, ⟨by decide, by decide, by decide⟩⟩
      (by decide) (by decide) (by decide) (by decide)
    exact h

/-- C7 counterexample: the input x/24 is not a wellformed base network (its
address part has no dots at all), yet the validation of calculateVLSM
accepts it, so the validation does not fail on every malformed base. -/
theorem validateBaseNetwork_counterexample :
    validateBaseNetwork ("x/24".data) = true ∧
      ¬ wellFormedBaseChars ("x/24".data) := by
  refine ⟨rfl, ?_⟩
  rintro ⟨ip, cidr, heq, hwf, -, -⟩
  have hdot := dot_mem_of_wf ip hwf
  have hmem : '.' ∈ "x/24".data := by
    rw [heq]
    exact List.mem_append.mpr (Or.inl hdot)
  exact absurd hmem (by decide)

/-- C8 amended: on every wellformed four-octet dotted string, ipToInt
returns the signed 32-bit reinterpretation of the unsigned address value
(negative whenever the first octet is at least 128, not the unsigned
value); it performs no validation and throws nothing: a five-octet string
yields the value of its first four octets and a short string yields NaN
rather than an error. -/
theorem ipToInt_spec :
    (∀ a b c d : List Char, isOctetStr a → isOctetStr b → isOctetStr c →
      isOctetStr d →
      ipToInt (a ++ '.' :: (b ++ '.' :: (c ++ '.' :: d))) =
        some (sInt32 (octValue a * 2 ^ 24 + octValue b * 2 ^ 16 +
          octValue c * 2 ^ 8 + octValue d))) ∧
    ipToInt ("1.2.3.4.5".data) = some 16909060 ∧
    ipToInt ("1.2.3".data) = none :=
  ⟨ipToInt_wellformed_eq, rfl, rfl⟩

/-- Closed instance of the amended ipToInt law on 10.0.0.1. -/
theorem ipToInt_spec_witness :
    ipToInt ("10.0.0.1".data) = some 167772161 := by
  have h := ipToInt_spec.1 ['1', '0'] ['0'] ['0'] ['1']
    ⟨by decide, by decide, by decide⟩ ⟨by decide, by decide, by decide⟩
    ⟨by decide, by decide, by decide⟩ ⟨by decide, by decide, by decide⟩
  exact h

/-- C8 counterexample: the wellformed address 128.0.0.0 is mapped to the
negative signed value -2147483648, not to its unsigned 32-bit value
2147483648. -/
theorem ipToInt_counterexample :
    ipToInt ("128.0.0.0".data) = some (-2147483648) ∧
      ((-2147483648 : Int) ≠ 2147483648) :=
  ⟨rfl, by decide⟩

/-- Any two addresses inside one aligned block of prefix at least 1 share
the 2^31 bit. -/
theorem topbit_eq_of_mem_range (base c x : Nat) (hc1 : 1 ≤ c) (hc : c ≤ 32)
    (hbase : base < 2 ^ 32) (hx : x ∈ rangeOf (base, c)) :
    x / 2 ^ 31 = getNetworkAddress base c / 2 ^ 31 := by
  have hdvd : 2 ^ (32 - c) ∣ getNetworkAddress base c :=
    dvd_getNetworkAddress base c hbase hc
  obtain ⟨q, hq⟩ := hdvd
  simp only [rangeOf, Set.mem_Ico] at hx
  have hxq : x / 2 ^ (32 - c) = q := by
    apply Nat.div_eq_of_lt_le
    · rw [Nat.mul_comm, ← hq]
      exact hx.1
    · have : (q + 1) * 2 ^ (32 - c) = q * 2 ^ (32 - c) + 2 ^ (32 - c) := by
        ring
      rw [this, Nat.mul_comm q _, ← hq]
      exact hx.2
  have hmq : getNetworkAddress base c / 2 ^ (32 - c) = q := by
    rw [hq]
    exact Nat.mul_div_cancel_left q (by positivity)
  have hsm : (2 : Nat) ^ 31 = 2 ^ (32 - c) * 2 ^ (31 - (32 - c)) := by
    rw [← pow_add]
    congr 1
    omega
  rw [hsm, ← Nat.div_div_eq_div_mul, ← Nat.div_div_eq_div_mul, hxq, hmq]

/-- C9: ipToInt computes with signed 32-bit arithmetic, so every wellformed
address with first octet at least 128 reads back negative; nevertheless,
for any two addresses inside one block of prefix at least 1 the signed
values compare exactly as the unsigned addresses do, so the lowest-address
comparisons inside one allocate call order fragments correctly. -/
theorem ipToInt_signed_comparisons :
    (∀ a b c d : List Char, isOctetStr a → isOctetStr b → isOctetStr c →
      isOctetStr d → 128 ≤ octValue a →
      ∃ v, ipToInt (a ++ '.' :: (b ++ '.' :: (c ++ '.' :: d))) = some v ∧
        v < 0) ∧
    (∀ base c x y : Nat, 1 ≤ c → c ≤ 32 → base < 2 ^ 32 →
      x ∈ rangeOf (base, c) → y ∈ rangeOf (base, c) →
      ((sInt32 x < sInt32 y ↔ x < y) ∧ (sInt32 x = sInt32 y ↔ x = y))) := by
  constructor
  · intro a b c d ha hb hc hd h128
    refine ⟨_, ipToInt_wellformed_eq a b c d ha hb hc hd, ?_⟩
    set V := octValue a * 2 ^ 24 + octValue b * 2 ^ 16 + octValue c * 2 ^ 8 +
      octValue d with hV
    have hVlo : 2 ^ 31 ≤ V := by
      have : 128 * 2 ^ 24 ≤ octValue a * 2 ^ 24 :=
        Nat.mul_le_mul_right _ h128
      have h1 : (128 : Nat) * 2 ^ 24 = 2 ^ 31 := by norm_num
      omega
    have hVhi : V < 2 ^ 32 := by
      have ha' := ha.2.2
      have hb' := hb.2.2
      have hc' := hc.2.2
      have hd' := hd.2.2
      have n24 : (2 : Nat) ^ 24 = 16777216 := by norm_num
      have n16 : (2 : Nat) ^ 16 = 65536 := by norm_num
      have n8 : (2 : Nat) ^ 8 = 256 := by norm_num
      have n32 : (2 : Nat) ^ 32 = 4294967296 := by norm_num
      rw [hV, n24, n16, n8, n32]
      omega
    unfold sInt32
    rw [if_neg (by omega)]
    have n31 : (2 : Nat) ^ 31 = 2147483648 := by norm_num
    have n32 : (2 : Nat) ^ 32 = 4294967296 := by norm_num
    rw [n31] at hVlo
    rw [n32] at hVhi
    push_cast
    omega
  · intro base c x y hc1 hc hbase hx hy
    have hxtop := topbit_eq_of_mem_range base c x hc1 hc hbase hx
    have hytop := topbit_eq_of_mem_range base c y hc1 hc hbase hy
    have htop : x / 2 ^ 31 = y / 2 ^ 31 := by rw [hxtop, hytop]
    have hsize := getNetworkAddress_add_size_le base c hbase hc
    simp only [rangeOf, Set.mem_Ico] at hx hy
    have hx32 : x < 2 ^ 32 := by omega
    have hy32 : y < 2 ^ 32 := by omega
    exact ⟨sInt32_lt_iff x y hx32 hy32 htop, sInt32_eq_iff x y hx32 hy32 htop⟩

/-- Closed instance of the signed-comparison law: 128.0.0.1 reads back
negative, and inside the block 128.0.0.0/1 the signed order of two sample
addresses agrees with the unsigned one. -/
theorem ipToInt_signed_comparisons_witness :
    (∃ v, ipToInt ("128.0.0.1".data) = some v ∧ v < 0) ∧
    ((sInt32 2147483648 < sInt32 2147483653 ↔
        (2147483648 : Nat) < 2147483653) ∧
      (sInt32 2147483648 = sInt32 2147483653 ↔
        (2147483648 : Nat) = 2147483653)) := by
  constructor
  · have h := ipToInt_signed_comparisons.1 ['1', '2', '8'] ['0'] ['0'] ['1']
      ⟨by decide, by decide, by decide⟩ ⟨by decide, by decide, by decide⟩
      ⟨by decide, by decide, by decide⟩ ⟨by decide, by decide, by decide⟩
      (by decide)
    exact h
  · have hg : getNetworkAddress 2147483648 1 = 2147483648 := by decide
    have hmem1 : (2147483648 : Nat) ∈ rangeOf (2147483648, 1) := by
      simp only [rangeOf, Set.mem_Ico, hg]
      norm_num
    have hmem2 : (2147483653 : Nat) ∈ rangeOf (2147483648, 1) := by
      simp only [rangeOf, Set.mem_Ico, hg]
      norm_num
    exact ipToInt_signed_comparisons.2 2147483648 1 2147483648 2147483653
      (by norm_num) (by norm_num) (by norm_num) hmem1 hmem2

/-- C10: the base-network validation accepts an address part that is not
the network address of its prefix (192.168.1.5/24 passes, and ipToInt reads
it as the signed value of 3232235781); when such a base is subdivided,
generateSubnetDivision first normalises it (one 100-host requirement gets
the aligned child 192.168.1.0/25, leaving 192.168.1.128/25 unused); but
when the base is assigned directly (200 hosts need the whole /24) the
unnormalised address 192.168.1.5 is returned verbatim as the network and
used as the basis of the broadcast, first-usable and last-usable values
(192.168.2.4, 192.168.1.6 and 192.168.2.3). -/
theorem unaligned_base_behavior :
    validateBaseNetwork ("192.168.1.5/24".data) = true ∧
    getNetworkAddress 3232235781 24 = 3232235776 ∧
    (3232235781 : Nat) ≠ 3232235776 ∧
    ipToInt ("192.168.1.5".data) = some (sInt32 3232235781) ∧
    calculateVLSM 3232235781 24 [some 200] Strategy.first =
      .ok [{ addr := 3232235781, cidr := 24, broadcast := 3232236036,
             firstIP := 3232235782, lastIP := 3232236035, usableHosts := 254,
             requiredHosts := 200, originalIndex := 0, networkNumber := 1 }] ∧
    performVLSMAllocation 3232235781 24
        [{ hosts := 100, originalIndex := 0, networkNumber := 1 }]
        Strategy.first =
      .ok ([{ addr := 3232235776, cidr := 25, broadcast := 3232235903,
              firstIP := 3232235777, lastIP := 3232235902, usableHosts := 126,
              requiredHosts := 100, originalIndex := 0, networkNumber := 1 }],
           [{ addr := 3232235904, cidr := 25, used := false }]) :=
  ⟨rfl, by decide, by decide, rfl, rfl, rfl⟩

end VLSM
